import Mathlib

/-!
# distbuild/proxy: task resolver and dispatch engine

A shallow embedding of `task/task.go` (include expansion, command normalisation,
`CompileDependency`) and of the dispatch loop of `proxy.go`
(`sendBuild`, `sendBuildRequest`, `receiveBuildResponse`), followed by the
properties proved about them.

Conventions of the embedding:

* the operating system is an explicit value: `FS` answers the read-only queries of
  the resolver (`os.Lstat`, `os.Stat`, `os.ReadDir`, `os.Readlink`,
  `filepath.EvalSymlinks`), `Disk` is the mutable workspace of the dispatcher;
* the captured, mutated `inputFiles` slice of the `walkDir` closure is passed and
  returned explicitly;
* `walkDir` is recursive through symlinks, so it carries a fuel argument; the result
  `none` stands for "recursion deeper than the fuel";
* Go's `(value, error)` results are pairs `value × Option error`.
-/

set_option linter.dupNamespace false

namespace Proxy

/-! ## `path/filepath` on a Unix host -/

namespace Filepath

/-- Split at every separator, as `strings.Split(s, "/")` does. -/
def splitSep : List Char → List (List Char)
  | [] => [[]]
  | c :: cs =>
    if c = '/' then [] :: splitSep cs
    else
      match splitSep cs with
      | [] => [[c]]
      | w :: ws => (c :: w) :: ws

/-- Join components with the separator. -/
def joinSep : List (List Char) → List Char
  | [] => []
  | [w] => w
  | w :: ws => w ++ '/' :: joinSep ws

/-- One step of the lexical clean-up: `stack` holds the kept components, last first. -/
def cleanStep (rooted : Bool) (stack : List (List Char)) (comp : List Char) :
    List (List Char) :=
  if comp = [] ∨ comp = ['.'] then stack
  else if comp = ['.', '.'] then
    match stack with
    | [] => if rooted then [] else [comp]
    | top :: rest => if top = ['.', '.'] then comp :: stack else rest
  else comp :: stack

/-- The components that `filepath.Clean` keeps. -/
def cleanComps (s : List Char) : List (List Char) :=
  ((splitSep s).foldl (cleanStep (s.head? = some '/')) []).reverse

/-- The function `filepath.Clean` on character lists. -/
def cleanChars (s : List Char) : List Char :=
  if s.head? = some '/' then '/' :: joinSep (cleanComps s)
  else if cleanComps s = [] then ['.']
  else joinSep (cleanComps s)

/-- The function `filepath.Clean`. -/
def Clean (s : String) : String := ⟨cleanChars s.data⟩

/-- The function `filepath.Join` for two elements: empty elements are ignored, the rest
is joined with a separator and cleaned; all elements empty gives the empty string. -/
def Join (a b : String) : String :=
  if a = "" then (if b = "" then "" else Clean b)
  else if b = "" then Clean a
  else ⟨cleanChars (a.data ++ '/' :: b.data)⟩

/-- Everything up to and including the last separator. -/
def dirPart : List Char → List Char
  | [] => []
  | c :: cs =>
    if '/' ∈ cs then c :: dirPart cs
    else if c = '/' then [c] else []

/-- The function `filepath.Dir`. -/
def Dir (s : String) : String := ⟨cleanChars (dirPart s.data)⟩

/-- Drop the longest common run of leading components. -/
def dropCommon : List (List Char) → List (List Char) → List (List Char) × List (List Char)
  | b :: bs, t :: ts => if b = t then dropCommon bs ts else (b :: bs, t :: ts)
  | bs, ts => (bs, ts)

/-- The function `filepath.Rel`: the path of `targpath` relative to `basepath`, or
`none` where Go returns an error. A cleaned path that is `.` counts as having no
elements; when elements of the base are left over, the first of them must not be `..`,
since the way back up from there cannot be found lexically. -/
def Rel (basepath targpath : String) : Option String :=
  let base := cleanChars basepath.data
  let targ := cleanChars targpath.data
  if targ = base then some "."
  else
    let base := if base = ['.'] then [] else base
    let targ := if targ = ['.'] then [] else targ
    if (base.head? = some '/') ≠ (targ.head? = some '/') then none
    else
      match dropCommon ((splitSep base).filter (· ≠ [])) ((splitSep targ).filter (· ≠ [])) with
      | (b :: bs, ts) =>
        if b = ['.', '.'] then none
        else some ⟨joinSep ((b :: bs).map (fun _ => ['.', '.']) ++ ts)⟩
      | ([], ts) => some ⟨joinSep ts⟩

end Filepath

open Filepath

/-! ## The file system seen by the resolver -/

/-- Why a system call failed: the error for which `os.IsNotExist` holds, or another. -/
inductive OsErr where
  | notExist
  | other
  deriving DecidableEq, Repr

/-- The read-only system calls of `task.go`, as functions of the path.
`lstat p` is `ok b` with `b` the `os.ModeSymlink` bit of `os.Lstat(p)`;
`stat p` is `ok b` with `b` the `IsDir()` of `os.Stat(p)`;
`readDir p` lists the entry names of `os.ReadDir(p)` in listing order. -/
structure FS where
  lstat : String → Except OsErr Bool
  stat : String → Except OsErr Bool
  readDir : String → Except OsErr (List String)
  readlink : String → Except OsErr String
  evalSymlinks : String → Except OsErr String

/-- The errors `appendPathToInputFiles` builds with `fmt.Errorf`, one constructor per
message. -/
inductive TaskErr where
  | readDir (path : String) (e : OsErr)
  | checkSymlink (path : String) (e : OsErr)
  | resolveSymlink (path : String) (e : OsErr)
  | resolvedNotExist (resolved : String)
  | resolvedStat (resolved : String) (e : OsErr)
  | pathNotExist (path : String)
  | statPath (path : String) (e : OsErr)
  | relPath (path : String)
  | traverse (path : String) (inner : TaskErr)
  deriving DecidableEq, Repr

/-- Source: `isSymlink`. -/
def isSymlink (fs : FS) (path : String) : Except OsErr Bool :=
  fs.lstat path

/-- Source: `resolveSymlink`. The path that is evaluated is the link text joined to the
directory of the link, whether the text is relative or absolute; when it cannot be
evaluated or statted, the result is the empty string and no error. -/
def resolveSymlink (fs : FS) (path : String) : Except OsErr String :=
  match isSymlink fs path with
  | .error e => .error e
  | .ok true =>
    match fs.readlink path with
    | .error e => .error e
    | .ok targetPath =>
      match fs.evalSymlinks (Join (Dir path) targetPath) with
      | .error _ => .ok ""
      | .ok fileinfo =>
        if fileinfo = "" then .ok ""
        else
          match fs.stat fileinfo with
          | .error _ => .ok ""
          | .ok _ => .ok fileinfo
  | .ok false => .ok path

/-- The guarded append that `appendPathToInputFiles` performs at each file it finds:
`if len(rel) > 0 && !slices.Contains(inputFiles, rel) then append`. -/
def addFile (inputFiles : List String) (relativeFilePath : String) : List String :=
  if 0 < relativeFilePath.length ∧ relativeFilePath ∉ inputFiles then
    inputFiles ++ [relativeFilePath]
  else inputFiles

/-- What a walk returns: `none` when the recursion is deeper than the fuel, otherwise the
current `inputFiles` and the error, if any. -/
abbrev WalkResult := Option (List String × Option TaskErr)

/-- The body of the `for _, entry := range entries` loop of `walkDir`; `walk` is the
recursive call. -/
def walkEntries (fs : FS) (dir : String) (walk : String → String → List String → WalkResult)
    (path linkPath : String) : List String → List String → WalkResult
  | [], inputFiles => some (inputFiles, none)
  | name :: entries, inputFiles =>
    let entryPath := Join path name
    let linkEntryPath := Join linkPath name
    match isSymlink fs entryPath with
    | .error e => some (inputFiles, some (.checkSymlink entryPath e))
    | .ok true =>
      match resolveSymlink fs entryPath with
      | .error e => some (inputFiles, some (.resolveSymlink entryPath e))
      | .ok resolvedPath =>
        if resolvedPath = "" then walkEntries fs dir walk path linkPath entries inputFiles
        else
          match fs.stat resolvedPath with
          | .error .notExist => some (inputFiles, some (.resolvedNotExist resolvedPath))
          | .error .other => some (inputFiles, some (.resolvedStat resolvedPath .other))
          | .ok true =>
            match walk resolvedPath linkEntryPath inputFiles with
            | none => none
            | some (inputFiles, some err) => some (inputFiles, some err)
            | some (inputFiles, none) =>
              walkEntries fs dir walk path linkPath entries inputFiles
          | .ok false =>
            match Rel dir linkEntryPath with
            | none => some (inputFiles, some (.relPath linkEntryPath))
            | some relativeFilePath =>
              walkEntries fs dir walk path linkPath entries (addFile inputFiles relativeFilePath)
    | .ok false =>
      match fs.stat entryPath with
      | .error .notExist => some (inputFiles, some (.pathNotExist entryPath))
      | .error .other => some (inputFiles, some (.statPath entryPath .other))
      | .ok true =>
        match walk entryPath linkEntryPath inputFiles with
        | none => none
        | some (inputFiles, some err) => some (inputFiles, some err)
        | some (inputFiles, none) =>
          walkEntries fs dir walk path linkPath entries inputFiles
      | .ok false =>
        match Rel dir linkEntryPath with
        | none => some (inputFiles, some (.relPath linkEntryPath))
        | some relativeFilePath =>
          walkEntries fs dir walk path linkPath entries (addFile inputFiles relativeFilePath)

/-- Source: the closure `walkDir` of `appendPathToInputFiles`. -/
def walkDir (fs : FS) (dir : String) : Nat → String → String → List String → WalkResult
  | 0, _, _, _ => none
  | fuel + 1, path, linkPath, inputFiles =>
    match fs.readDir path with
    | .error e => some (inputFiles, some (.readDir path e))
    | .ok entries => walkEntries fs dir (walkDir fs dir fuel) path linkPath entries inputFiles

/-- Source: `appendPathToInputFiles`, the loop over `includePath`; `include_` is the
local `include`. -/
def appendPathToInputFiles (fs : FS) (fuel : Nat) (dir : String) :
    List String → List String → WalkResult
  | inputFiles, [] => some (inputFiles, none)
  | inputFiles, item :: includePath =>
    let include_ := Join dir item
    match isSymlink fs include_ with
    | .error .notExist => some (inputFiles, some (.pathNotExist include_))
    | .error .other => some (inputFiles, some (.checkSymlink include_ .other))
    | .ok true =>
      match resolveSymlink fs include_ with
      | .error e => some (inputFiles, some (.resolveSymlink include_ e))
      | .ok resolvedPath =>
        if resolvedPath = "" then appendPathToInputFiles fs fuel dir inputFiles includePath
        else
          match fs.stat resolvedPath with
          | .error .notExist => some (inputFiles, some (.resolvedNotExist resolvedPath))
          | .error .other => some (inputFiles, some (.resolvedStat resolvedPath .other))
          | .ok true =>
            match walkDir fs dir fuel resolvedPath include_ inputFiles with
            | none => none
            | some (inputFiles, some err) => some (inputFiles, some (.traverse resolvedPath err))
            | some (inputFiles, none) =>
              appendPathToInputFiles fs fuel dir inputFiles includePath
          | .ok false =>
            match Rel dir include_ with
            | none => some (inputFiles, some (.relPath include_))
            | some relativeFilePath =>
              appendPathToInputFiles fs fuel dir (addFile inputFiles relativeFilePath) includePath
    | .ok false =>
      match fs.stat include_ with
      | .error .notExist => some (inputFiles, some (.pathNotExist include_))
      | .error .other => some (inputFiles, some (.statPath include_ .other))
      | .ok true =>
        match walkDir fs dir fuel include_ include_ inputFiles with
        | none => none
        | some (inputFiles, some err) => some (inputFiles, some (.traverse include_ err))
        | some (inputFiles, none) =>
          appendPathToInputFiles fs fuel dir inputFiles includePath
      | .ok false =>
        match Rel dir include_ with
        | none => some (inputFiles, some (.relPath include_))
        | some relativeFilePath =>
          appendPathToInputFiles fs fuel dir (addFile inputFiles relativeFilePath) includePath

/-! ## `parseCommand` -/

/-- Remove a literal from the front of the text, if it is there. -/
def dropLit : List Char → List Char → Option (List Char)
  | [], s => some s
  | _ :: _, [] => none
  | l :: ls, c :: cs => if l = c then dropLit ls cs else none

/-- The literal head of `clangPattern`. -/
def clangHead : List Char := "prebuilts/clang/host/linux-x86/clang-".data

/-- The class `[a-zA-Z0-9]`. -/
def isAlnum (c : Char) : Bool :=
  ('a' ≤ c ∧ c ≤ 'z') ∨ ('A' ≤ c ∧ c ≤ 'Z') ∨ ('0' ≤ c ∧ c ≤ '9')

/-- A match of
`prebuilts/clang/host/linux-x86/clang-[a-zA-Z0-9]+/bin/(clang|clang\+\+)`
at the start of the text: the length of the match and the text of group 1. Matching is
leftmost-first, so the alternation stops at its first alternative, `clang`. -/
def matchClang (s : List Char) : Option (Nat × List Char) :=
  match dropLit clangHead s with
  | none => none
  | some r1 =>
    let ver := r1.takeWhile isAlnum
    if ver = [] then none
    else
      match dropLit "/bin/".data (r1.dropWhile isAlnum) with
      | none => none
      | some r2 =>
        match dropLit "clang".data r2 with
        | none => none
        | some _ => some (clangHead.length + ver.length + 10, "clang".data)

/-- The call `clangPattern.ReplaceAllStringFunc(command, f)` with `f` returning group 1:
successive leftmost matches are replaced; `skip` counts the characters of the current
match still to be dropped. -/
def replaceClang : Nat → List Char → List Char
  | _, [] => []
  | skip + 1, _ :: cs => replaceClang skip cs
  | 0, c :: cs =>
    match matchClang (c :: cs) with
    | some (n, group) => group ++ replaceClang (n - 1) cs
    | none => c :: replaceClang 0 cs

/-- Source: `parseCommand`. -/
def parseCommand (command compiletype : String) : String :=
  if compiletype = "clang" ∨ compiletype = "clang++" then ⟨replaceClang 0 command.data⟩
  else command

/-- Written from the pattern, not from the matcher: the text starts with an occurrence of
`prebuilts/clang/host/linux-x86/clang-<version>/bin/clang`, the version being one or more
letters or digits. -/
def StartsWithClang (s : List Char) : Prop :=
  ∃ ver rest : List Char, ver ≠ [] ∧ (∀ c ∈ ver, isAlnum c = true) ∧
    s = clangHead ++ ver ++ "/bin/clang".data ++ rest

/-- The text contains an occurrence of the pattern. -/
def ContainsClang (s : List Char) : Prop :=
  ∃ pre post : List Char, s = pre ++ post ∧ StartsWithClang post

/-! ## `CompileDependency` -/

/-- Source: `Command`. -/
structure Command where
  Command : String
  CompilerType : String
  InputFiles : List String
  OutputFile : String
  Includes : List String
  Module : String
  deriving DecidableEq, Repr

/-- Source: `CompileInfo`. -/
structure CompileInfo where
  Commands : List Command
  deriving DecidableEq, Repr

/-- Source: `BuildInfo`. -/
structure BuildInfo where
  BuildRule : String
  BuildFiles : List String
  BuildTargets : List String
  deriving DecidableEq, Repr

/-- What opening and decoding the descriptor file gives. -/
inductive Descriptor where
  | openFails
  | decodeFails
  | decoded (compileInfo : CompileInfo)
  deriving DecidableEq, Repr

/-- The errors of `CompileDependency`. -/
inductive ResolveErr where
  | openJSON
  | decodeJSON
  | appendInclude (e : TaskErr)
  deriving DecidableEq, Repr

/-- The result of `CompileDependency`: `none` when a walk ran out of fuel. -/
abbrev ResolveResult := Option (List BuildInfo × Option ResolveErr)

/-- The loop `for _, command := range compileInfo.Commands` of `CompileDependency`;
`tasks` is the slice built so far. An include error returns `nil` and the error. -/
def compileCommands (fs : FS) (fuel : Nat) (path : String) :
    List Command → List BuildInfo → ResolveResult
  | [], tasks => some (tasks, none)
  | command :: commands, tasks =>
    let rule := parseCommand command.Command command.CompilerType
    let targets := if command.OutputFile ≠ "" then [command.OutputFile] else []
    if 0 < command.Includes.length then
      match appendPathToInputFiles fs fuel path command.InputFiles command.Includes with
      | none => none
      | some (_, some err) => some ([], some (.appendInclude err))
      | some (files, none) =>
        compileCommands fs fuel path commands (tasks ++ [⟨rule, files, targets⟩])
    else
      compileCommands fs fuel path commands (tasks ++ [⟨rule, command.InputFiles, targets⟩])

/-- Source: `CompileDependency`. `readJSON` is the outcome of opening and decoding the
file at the given path. -/
def CompileDependency (fs : FS) (readJSON : String → Descriptor) (fuel : Nat)
    (path filename : String) : ResolveResult :=
  match readJSON (Join (Join path "out") filename) with
  | .openFails => some ([], some .openJSON)
  | .decodeFails => some ([], some .decodeJSON)
  | .decoded compileInfo => compileCommands fs fuel path compileInfo.Commands []

/-! ## The dispatcher (`proxy.go`) -/

/-- File contents. -/
abbrev Bytes := List Nat

/-- Modelled from the spec: the file payload of the generated `proto` package, which is
not among the sources (section 6: `{ path, data, checksum }`), with the field names the
callers use. -/
structure BuildFile where
  FilePath : String
  FileData : Bytes
  CheckSum : String
  deriving DecidableEq, Repr

/-- Modelled from the spec: the request message of the generated `proto` package
(section 6: `{ requestID, files, rule, basePath, targets }`). -/
structure BuildRequest where
  BuildID : String
  BuildFiles : List BuildFile
  BuildRule : String
  BuildPath : String
  BuildTargets : List String
  deriving DecidableEq, Repr

/-- Modelled from the spec: the target payload of the generated `proto` package
(section 6: `{ path, data, checksum }`). -/
structure BuildTarget where
  TargetPath : String
  TargetData : Bytes
  Checksum : String
  deriving DecidableEq, Repr

/-- Modelled from the spec: the reply message of the generated `proto` package
(section 6: `{ targets }`). -/
structure BuildReply where
  BuildTargets : List BuildTarget
  deriving DecidableEq, Repr

/-- One result of `stream.Recv()` before the end of the stream. -/
inductive RecvResult where
  | reply (result : BuildReply)
  | failure
  deriving DecidableEq, Repr

/-- A bidirectional stream, as the dispatcher sees it: whether `Send` and `CloseSend`
fail, and the successive results of `Recv` for the request sent; after the last one
`Recv` returns `io.EOF`. -/
structure Stream where
  sendFails : BuildRequest → Bool
  closeSendFails : Bool
  recv : BuildRequest → List RecvResult

/-- A worker connection: `SendBuild i` is the outcome of `client.SendBuild(ctx)` when it
is called for the unit at position `i`, `none` for an error. -/
structure BuildServiceClient where
  addr : String
  SendBuild : Nat → Option Stream

/-- The workspace as the dispatcher reads and writes it. -/
structure Disk where
  file : String → Option Bytes
  isDir : String → Bool

/-- The package-level variables of `proxy.go` and the behaviour of the host:
`hash` is the digest of `utils.Checksum`, the `...Fails` fields say which calls fail,
`buildID` is the result of `createBuildID`. `writeFileLeaves p` says how far a failing
`os.WriteFile(p, data)` got: `none` when the file could not be opened, `some k` when it
was opened, which truncates it, and `k` bytes were written before the error. -/
structure Env where
  fs : FS
  readJSON : String → Descriptor
  workSpacePath : String
  compileFile : String
  hash : Bytes → String
  checksumFails : String → Bool
  readFileFails : String → Bool
  mkdirAllFails : String → Bool
  writeFileFails : String → Bool
  writeFileLeaves : String → Option Nat
  buildID : Option String

/-- What the dispatcher did, in order: `write p data` says that a call of
`os.WriteFile(p, ...)` left `data` in the file, `verify target sum` that `utils.Checksum`
gave `sum` for the file of the target. -/
inductive Event where
  | dispatch (client : BuildServiceClient) (item : BuildInfo)
  | mkdir (path : String)
  | write (path : String) (data : Bytes)
  | verify (target : BuildTarget) (sum : String)

/-- The state the dispatcher works on: the workspace and the record of what was done. -/
structure World where
  disk : Disk
  trace : List Event

/-- Does `os.Stat` find the path. -/
def Disk.present (d : Disk) (p : String) : Bool :=
  (d.file p).isSome || d.isDir p

/-- Is `q` the directory `p` or one of its parents. -/
def isParentOrSelf (q p : String) : Bool :=
  (q.data.head? = some '/') == (p.data.head? = some '/') &&
    (cleanComps q.data).isPrefixOf (cleanComps p.data)

/-- The effect of a successful `os.MkdirAll(p)`. -/
def Disk.mkdirAll (d : Disk) (p : String) : Disk :=
  { d with isDir := fun q => d.isDir q || isParentOrSelf q p }

/-- The effect of a successful `os.WriteFile(p, data)`. -/
def Disk.writeFile (d : Disk) (p : String) (data : Bytes) : Disk :=
  { d with file := fun q => if q = p then some data else d.file q }

/-- The call `utils.Checksum(p)`: the digest of the file's content. -/
def Checksum (env : Env) (d : Disk) (p : String) : Option String :=
  if env.checksumFails p then none else (d.file p).map env.hash

/-- The call `os.ReadFile(p)`. -/
def ReadFile (env : Env) (d : Disk) (p : String) : Option Bytes :=
  if env.readFileFails p then none else d.file p

/-- The errors of `sendBuildRequest`. -/
inductive RequestErr where
  | checksum
  | readFile
  | buildID
  | send
  | closeSend
  deriving DecidableEq, Repr

/-- The errors of `receiveBuildResponse`. -/
inductive ResponseErr where
  | receive
  | mkdir
  | writeFile
  | checksum
  | mismatch
  deriving DecidableEq, Repr

/-- The errors of `sendBuild`; `noClient` is the run-time panic of `clients[i%len(clients)]`
on an empty slice. -/
inductive SendErr where
  | parseTask (e : ResolveErr)
  | noTasks
  | noClient
  | clientBuild
  | buildRequest (e : RequestErr)
  | buildResponse (e : ResponseErr)
  deriving DecidableEq, Repr

/-- The loop `for _, item := range build.BuildFiles` of `sendBuildRequest`. -/
def readBuildFiles (env : Env) (d : Disk) :
    List String → List BuildFile → Except RequestErr (List BuildFile)
  | [], files => .ok files
  | item :: items, files =>
    let p := Join env.workSpacePath item
    match Checksum env d p with
    | none => .error .checksum
    | some sum =>
      match ReadFile env d p with
      | none => .error .readFile
      | some data => readBuildFiles env d items (files ++ [⟨item, data, sum⟩])

/-- Source: `sendBuildRequest`; the request that was sent is returned. -/
def sendBuildRequest (env : Env) (d : Disk) (stream : Stream) (build : BuildInfo) :
    Except RequestErr BuildRequest :=
  match readBuildFiles env d build.BuildFiles [] with
  | .error e => .error e
  | .ok files =>
    match env.buildID with
    | none => .error .buildID
    | some id =>
      let req : BuildRequest :=
        ⟨id, files, build.BuildRule, env.workSpacePath, build.BuildTargets⟩
      if stream.sendFails req then .error .send
      else if stream.closeSendFails then .error .closeSend
      else .ok req

/-- The body of the loop `for _, target := range result.GetBuildTargets()` of
`receiveBuildResponse`: the parent directory is made if neither the path nor its parent
is found, the data is written, the checksum of the written file is computed and compared
with the received one. `os.WriteFile` opens the file with `O_TRUNC` before it writes: a
path that is a directory cannot be opened and nothing changes; any other failing call
leaves what `writeFileLeaves` says, the old file or a prefix of the data, and the event
`write` records what the file holds from then on. The directories that a failing
`os.MkdirAll` may have made are not recorded: the call returns at once and no file is
touched. -/
def receiveTarget (env : Env) (target : BuildTarget) (w : World) :
    World × Option ResponseErr :=
  let _path := Join env.workSpacePath target.TargetPath
  let needDir := !w.disk.present _path && !w.disk.present (Dir _path)
  if needDir && env.mkdirAllFails (Dir _path) then (w, some .mkdir)
  else
    let w : World :=
      if needDir then ⟨w.disk.mkdirAll (Dir _path), w.trace ++ [.mkdir (Dir _path)]⟩ else w
    if w.disk.isDir _path then (w, some .writeFile)
    else if env.writeFileFails _path then
      match env.writeFileLeaves _path with
      | none => (w, some .writeFile)
      | some k =>
        (⟨w.disk.writeFile _path (target.TargetData.take k),
          w.trace ++ [.write _path (target.TargetData.take k)]⟩, some .writeFile)
    else
      let w : World :=
        ⟨w.disk.writeFile _path target.TargetData,
          w.trace ++ [.write _path target.TargetData]⟩
      match Checksum env w.disk _path with
      | none => (w, some .checksum)
      | some sum =>
        let w : World := ⟨w.disk, w.trace ++ [.verify target sum]⟩
        if sum ≠ target.Checksum then (w, some .mismatch)
        else (w, none)

/-- The loop `for _, target := range result.GetBuildTargets()` of
`receiveBuildResponse`. -/
def receiveTargets (env : Env) : List BuildTarget → World → World × Option ResponseErr
  | [], w => (w, none)
  | target :: targets, w =>
    match receiveTarget env target w with
    | (w, some err) => (w, some err)
    | (w, none) => receiveTargets env targets w

/-- Source: `receiveBuildResponse`, on the successive results of `stream.Recv()`. -/
def receiveBuildResponse (env : Env) : List RecvResult → World → World × Option ResponseErr
  | [], w => (w, none)
  | .failure :: _, w => (w, some .receive)
  | .reply result :: results, w =>
    match receiveTargets env result.BuildTargets w with
    | (w, some err) => (w, some err)
    | (w, none) => receiveBuildResponse env results w

/-- The loop `for i, item := range buf` of `sendBuild`, from position `i` on. -/
def sendUnits (env : Env) (clients : List BuildServiceClient) :
    Nat → List BuildInfo → World → World × Option SendErr
  | _, [], w => (w, none)
  | i, item :: items, w =>
    match clients[i % clients.length]? with
    | none => (w, some .noClient)
    | some client =>
      let w : World := ⟨w.disk, w.trace ++ [.dispatch client item]⟩
      match client.SendBuild i with
      | none => (w, some .clientBuild)
      | some stream =>
        match sendBuildRequest env w.disk stream item with
        | .error e => (w, some (.buildRequest e))
        | .ok req =>
          match receiveBuildResponse env (stream.recv req) w with
          | (w, some e) => (w, some (.buildResponse e))
          | (w, none) => sendUnits env clients (i + 1) items w

/-- Source: `sendBuild`. The result is `none` when the resolver ran out of fuel. -/
def sendBuild (env : Env) (fuel : Nat) (clients : List BuildServiceClient) (w : World) :
    Option (World × Option SendErr) :=
  match CompileDependency env.fs env.readJSON fuel env.workSpacePath env.compileFile with
  | none => none
  | some (_, some err) => some (w, some (.parseTask err))
  | some (buf, none) =>
    if buf.length = 0 then some (w, some .noTasks)
    else some (sendUnits env clients 0 buf w)

/-- The units dispatched, in order, each with the client it was given to. -/
def dispatches : List Event → List (BuildServiceClient × BuildInfo)
  | [] => []
  | .dispatch client item :: es => (client, item) :: dispatches es
  | _ :: es => dispatches es

/-! ## Concrete workspaces used to run the definitions -/

/-- What a path names in a listed workspace. -/
inductive Node where
  | file
  | dir (entries : List String)
  | link (target : String)
  deriving DecidableEq, Repr

/-- The node listed at a path. -/
def lookupNode (nodes : List (String × Node)) (p : String) : Option Node :=
  (nodes.find? (fun x => x.1 = p)).map (·.2)

/-- Where the link at `p` with text `target` points: an absolute text is the path
itself, a relative one is taken from the directory that holds the link. -/
def linkTarget (p target : String) : String :=
  if target.data.head? = some '/' then Clean target else Join (Dir p) target

/-- Follow the link at `p`, at most `depth` links deep (`filepath.EvalSymlinks` on a
listed workspace whose directories on the way are not links). -/
def followLinks (nodes : List (String × Node)) : Nat → String → Except OsErr String
  | 0, _ => .error .other
  | depth + 1, p =>
    match lookupNode nodes p with
    | none => .error .notExist
    | some (.link target) => followLinks nodes depth (linkTarget p target)
    | some _ => .ok p

/-- The file system made of the listed nodes; every other path does not exist. -/
def FS.ofList (nodes : List (String × Node)) : FS where
  lstat p :=
    match lookupNode nodes p with
    | none => .error .notExist
    | some (.link _) => .ok true
    | some _ => .ok false
  stat p :=
    match followLinks nodes 8 p with
    | .error e => .error e
    | .ok q =>
      match lookupNode nodes q with
      | some (.dir _) => .ok true
      | some _ => .ok false
      | none => .error .notExist
  readDir p :=
    match lookupNode nodes p with
    | some (.dir entries) => .ok entries
    | some _ => .error .other
    | none => .error .notExist
  readlink p :=
    match lookupNode nodes p with
    | some (.link target) => .ok target
    | some _ => .error .other
    | none => .error .notExist
  evalSymlinks p := followLinks nodes 8 p

/-- The workspace of `TestAppendPathToInputFiles`. -/
def projectFS : FS :=
  FS.ofList
    [("/home/user/project", .dir ["include1", "include2"]),
     ("/home/user/project/include1", .dir ["file3.txt"]),
     ("/home/user/project/include2", .dir ["file4.txt"]),
     ("/home/user/project/include1/file3.txt", .file),
     ("/home/user/project/include2/file4.txt", .file)]

/-- The workspace of `TestCompileDependency`. -/
def testdataFS : FS :=
  FS.ofList
    [("testdata", .dir ["include1", "include2", "out"]),
     ("testdata/out", .dir ["compile_info.json"]),
     ("testdata/out/compile_info.json", .file),
     ("testdata/include1", .dir ["file3.c"]),
     ("testdata/include2", .dir ["file4.c"]),
     ("testdata/include1/file3.c", .file),
     ("testdata/include2/file4.c", .file)]

/-- The descriptor of `TestCompileDependency`. -/
def testdataJSON (p : String) : Descriptor :=
  if p = "testdata/out/compile_info.json" then
    .decoded ⟨[⟨"gcc", "gcc", ["file1.c", "file2.c"], "output.o", ["include1", "include2"],
      "test_module"⟩]⟩
  else .openFails

/-- Three commands without includes. -/
def threeCommands : List Command :=
  [⟨"gcc -c a.c", "gcc", ["a.c"], "a.o", [], ""⟩,
   ⟨"gcc -c b.c", "gcc", ["b.c"], "b.o", [], ""⟩,
   ⟨"gcc -c c.c", "gcc", ["c.c"], "", [], ""⟩]

/-- The three units of `threeCommands`. -/
def threeUnits : List BuildInfo :=
  [⟨"gcc -c a.c", ["a.c"], ["a.o"]⟩, ⟨"gcc -c b.c", ["b.c"], ["b.o"]⟩,
   ⟨"gcc -c c.c", ["c.c"], []⟩]

/-- A workspace with the three sources of `threeCommands`. -/
def threeDisk : Disk where
  file p := if p = "/ws/a.c" ∨ p = "/ws/b.c" ∨ p = "/ws/c.c" then some [1] else none
  isDir p := p = "/ws" ∨ p = "/"

/-- A host on which no call fails, with the descriptor `threeCommands`. -/
def threeEnv : Env where
  fs := FS.ofList [("/ws", .dir [])]
  readJSON _ := .decoded ⟨threeCommands⟩
  workSpacePath := "/ws"
  compileFile := "compile.json"
  hash data := toString data.sum
  checksumFails _ := false
  readFileFails _ := false
  mkdirAllFails _ := false
  writeFileFails _ := false
  writeFileLeaves _ := none
  buildID := some "00:00:00:00:00:01-0"

/-- A stream that accepts the request and replies with nothing. -/
def quietStream : Stream := ⟨fun _ => false, false, fun _ => []⟩

/-- Worker 0. -/
def worker0 : BuildServiceClient := ⟨"10.0.0.1:39090", fun _ => some quietStream⟩

/-- Worker 1. -/
def worker1 : BuildServiceClient := ⟨"10.0.0.2:39090", fun _ => some quietStream⟩

/-- The unit `CompileDependency` builds from one command: the normalised rule, the output
file as the only target if there is one, and the input files, expanded by the includes
if there are any. -/
def BuiltFrom (fs : FS) (fuel : Nat) (path : String) (c : Command) (u : BuildInfo) : Prop :=
  u.BuildRule = parseCommand c.Command c.CompilerType ∧
  u.BuildTargets = (if c.OutputFile ≠ "" then [c.OutputFile] else []) ∧
  (c.Includes = [] → u.BuildFiles = c.InputFiles) ∧
  (c.Includes ≠ [] →
    appendPathToInputFiles fs fuel path c.InputFiles c.Includes = some (u.BuildFiles, none))

/-- The list `files'` is `files` followed by new, pairwise distinct paths. -/
def Extends (files files' : List String) : Prop :=
  ∃ added, files' = files ++ added ∧ added.Nodup ∧ ∀ x ∈ added, x ∉ files

/-- A workspace with a nested include directory: `inc/a.h` and `inc/sub/b.h`. -/
def nestedFS : FS :=
  FS.ofList
    [("/ws", .dir ["inc"]),
     ("/ws/inc", .dir ["a.h", "sub"]),
     ("/ws/inc/a.h", .file),
     ("/ws/inc/sub", .dir ["b.h"]),
     ("/ws/inc/sub/b.h", .file)]

/-- A descriptor whose only command lists the same input file twice and has no
includes. -/
def repeatedInputJSON (_ : String) : Descriptor :=
  .decoded ⟨[⟨"gcc -c a.c", "gcc", ["a.c", "a.c"], "a.o", [], ""⟩]⟩

/-! ## The enumeration of section 4.1, written from the specification -/

/-- Specification (section 4.1, `resolve` applied to an entry): `none` is a hard failure,
`some none` a dangling link, which is ignored, and `some (some (real, isDir))` gives the
physical location of the entry and says whether it is a directory. -/
def specResolve (fs : FS) (p : String) : Option (Option (String × Bool)) :=
  match isSymlink fs p with
  | .error _ => none
  | .ok true =>
    match resolveSymlink fs p with
    | .error _ => none
    | .ok real =>
      if real = "" then some none
      else
        match fs.stat real with
        | .error _ => none
        | .ok isDir => some (some (real, isDir))
  | .ok false =>
    match fs.stat p with
    | .error _ => none
    | .ok isDir => some (some (p, isDir))

/-- Specification (section 4.1, `enumerate`, the entries of one directory): the relative
paths found, in listing order and depth first, named by the alias; no deduplication. -/
def specEnumerateEntries (fs : FS) (dir : String)
    (enumerate : String → String → Option (List String)) (root linkAlias : String) :
    List String → Option (List String)
  | [] => some []
  | name :: entries =>
    match specResolve fs (Join root name) with
    | none => none
    | some none => specEnumerateEntries fs dir enumerate root linkAlias entries
    | some (some (real, true)) =>
      match enumerate real (Join linkAlias name),
          specEnumerateEntries fs dir enumerate root linkAlias entries with
      | some below, some rest => some (below ++ rest)
      | _, _ => none
    | some (some (_, false)) =>
      match Rel dir (Join linkAlias name),
          specEnumerateEntries fs dir enumerate root linkAlias entries with
      | some rel, some rest => some (rel :: rest)
      | _, _ => none

/-- Specification (section 4.1): `enumerate(root, linkAlias)`. -/
def specEnumerate (fs : FS) (dir : String) : Nat → String → String → Option (List String)
  | 0, _, _ => none
  | fuel + 1, root, linkAlias =>
    match fs.readDir root with
    | .error _ => none
    | .ok entries =>
      specEnumerateEntries fs dir (specEnumerate fs dir fuel) root linkAlias entries

/-- Specification (section 4.2, step 3): the paths found by expanding each include, in
include-list order. -/
def specExpand (fs : FS) (fuel : Nat) (dir : String) : List String → Option (List String)
  | [] => some []
  | item :: includes =>
    match specResolve fs (Join dir item) with
    | none => none
    | some none => specExpand fs fuel dir includes
    | some (some (real, true)) =>
      match specEnumerate fs dir fuel real (Join dir item), specExpand fs fuel dir includes with
      | some below, some rest => some (below ++ rest)
      | _, _ => none
    | some (some (_, false)) =>
      match Rel dir (Join dir item), specExpand fs fuel dir includes with
      | some rel, some rest => some (rel :: rest)
      | _, _ => none

/-- The names `names` lead from the directory `root` down to a file: each name is listed
in the directory reached so far, every name but the last stands for a directory (itself
or, for a link, its resolved target) in which the descent goes on, and the last name
stands for a file. -/
def Below (fs : FS) : String → List String → Prop
  | _, [] => False
  | root, name :: names =>
    ∃ entries, fs.readDir root = .ok entries ∧ name ∈ entries ∧
      ∃ real, (names = [] ∧ specResolve fs (Join root name) = some (some (real, false))) ∨
        (specResolve fs (Join root name) = some (some (real, true)) ∧ Below fs real names)

/-- Every path of `files'` is in `files` or names a file below `path` by the alias
`linkPath`: it is the alias joined with the names of the descent, relative to `dir`. -/
def NamedByAlias (fs : FS) (dir path linkPath : String) (files files' : List String) : Prop :=
  ∀ x ∈ files', x ∈ files ∨
    ∃ names, Below fs path names ∧ Rel dir (names.foldl Join linkPath) = some x

/-- A workspace `/ws` whose include `inc` is a link to `/ext/real`, outside the
workspace; `/ext/real/more` is a link to `/other/deep`. -/
def aliasFS : FS :=
  FS.ofList
    [("/ws", .dir ["inc"]),
     ("/ws/inc", .link "../ext/real"),
     ("/ext/real", .dir ["a.h", "more"]),
     ("/ext/real/a.h", .file),
     ("/ext/real/more", .link "../../other/deep"),
     ("/other/deep", .dir ["b.h"]),
     ("/other/deep/b.h", .file)]

/-- A link on which `resolveSymlink` gives up, told as the resolver computes it: `p` is a
symlink whose text can be read, and the text joined to the directory of the link cannot
be evaluated (`filepath.EvalSymlinks` fails or gives nothing) or the path it evaluates to
cannot be statted. For a relative text this is the target of the link; for an absolute
text it is another path. -/
def Unresolved (fs : FS) (p : String) : Prop :=
  fs.lstat p = .ok true ∧
    ∃ target, fs.readlink p = .ok target ∧
      match fs.evalSymlinks (Join (Dir p) target) with
      | .error _ => True
      | .ok real => real = "" ∨ ∃ e, fs.stat real = .error e

/-- A dangling link, told by the system and not by the resolver: `p` is a symlink and
`os.Stat(p)`, which follows the link, fails. -/
def Dangling (fs : FS) (p : String) : Prop :=
  fs.lstat p = .ok true ∧ ∃ e, fs.stat p = .error e

/-- A link to a directory, told by the system and not by the resolver: `p` is a symlink,
`os.Stat(p)` follows it to a directory and `filepath.EvalSymlinks(p)` gives the location
`real` of that directory. -/
def LinksToDir (fs : FS) (p real : String) : Prop :=
  fs.lstat p = .ok true ∧ fs.stat p = .ok true ∧ fs.evalSymlinks p = .ok real

/-- The file system in which the listing of `parent` does not show `name`. -/
def FS.without (fs : FS) (parent name : String) : FS :=
  { fs with
    readDir := fun p =>
      if p = parent then
        match fs.readDir p with
        | .error e => .error e
        | .ok entries => .ok (entries.filter (· ≠ name))
      else fs.readDir p }

/-- A workspace with two dangling links: the include `lost` and the entry `inc/gone`. -/
def danglingFS : FS :=
  FS.ofList
    [("/ws", .dir ["inc", "lost"]),
     ("/ws/lost", .link "nowhere"),
     ("/ws/inc", .dir ["a.h", "gone", "b.h"]),
     ("/ws/inc/a.h", .file),
     ("/ws/inc/gone", .link "../missing/dir"),
     ("/ws/inc/b.h", .file)]

/-- A workspace `/ws` whose directory `inc` holds the file `a.h` and the link `l` with the
given text; the directory `/ext/real`, outside the workspace, holds the file `b.h`. -/
def outsideFS (text : String) : FS :=
  FS.ofList
    [("/ws", .dir ["inc"]),
     ("/ws/inc", .dir ["a.h", "l"]),
     ("/ws/inc/a.h", .file),
     ("/ws/inc/l", .link text),
     ("/ext/real", .dir ["b.h"]),
     ("/ext/real/b.h", .file)]

/-- A workspace `/ws` whose directory `inc2` holds the directory `inc`, with the file
`a.h`, and the link `l` with the absolute text `/inc`; there is nothing at `/inc`. -/
def strayFS : FS :=
  FS.ofList
    [("/ws", .dir ["inc2"]),
     ("/ws/inc2", .dir ["inc", "l"]),
     ("/ws/inc2/inc", .dir ["a.h"]),
     ("/ws/inc2/inc/a.h", .file),
     ("/ws/inc2/l", .link "/inc")]

/-- Every path of `files'` is in `files` or is named by the alias of an include item: it
is the path of an item that stands for a file, or the path of an item that stands for a
directory (itself or the one the resolver found for a link) joined with the names of a
descent below that directory, both taken relative to `dir`. -/
def NamedByInclude (fs : FS) (dir : String) (includePath files files' : List String) :
    Prop :=
  ∀ x ∈ files', x ∈ files ∨ ∃ item ∈ includePath,
    Rel dir (Join dir item) = some x ∨
    ∃ real names, specResolve fs (Join dir item) = some (some (real, true)) ∧
      Below fs real names ∧ Rel dir (names.foldl Join (Join dir item)) = some x

/-- A descriptor of two commands; the second lists the include `nope`, which does not
exist in `nestedFS`, after the existing include `inc`. -/
def missingIncludeJSON (_ : String) : Descriptor :=
  .decoded ⟨[⟨"gcc -c a.c", "gcc", ["a.c"], "a.o", ["inc"], ""⟩,
    ⟨"gcc -c b.c", "gcc", ["b.c"], "b.o", ["inc", "nope", "inc/sub"], ""⟩,
    ⟨"gcc -c c.c", "gcc", ["c.c"], "c.o", [], ""⟩]⟩

/-- Every checksum recomputed in these events equals the checksum that was received. -/
def Verified (events : List Event) : Prop :=
  ∀ target sum, Event.verify target sum ∈ events → sum = target.Checksum

/-- What a run adds to the trace: when it ends with the mismatch error, the events end
with the verification of a target whose checksums differ and every earlier verification
matched; otherwise every verification matched. -/
def EndsAtMismatch (events : List Event) (mismatch : Prop) : Prop :=
  (mismatch → ∃ before target sum, events = before ++ [.verify target sum] ∧
    sum ≠ target.Checksum ∧ Verified before) ∧
  (¬ mismatch → Verified events)

/-- A stream whose first reply carries the target `out/bin` with the checksum
`deadbeef`, which is not the digest of its data, followed by further targets. -/
def corruptStream : Stream :=
  ⟨fun _ => false, false, fun _ =>
    [.reply ⟨[⟨"out/bin", [1, 2], "deadbeef"⟩, ⟨"out/lib", [3], "3"⟩]⟩,
     .reply ⟨[⟨"out/doc", [4], "4"⟩]⟩]⟩

/-- A worker that answers with `corruptStream`. -/
def corruptWorker : BuildServiceClient := ⟨"10.0.0.3:39090", fun _ => some corruptStream⟩

/-- What a step of the receiver leaves in the workspace, told by the events `new` it adds
to the trace: without events the disk is as before; when the last event is the
verification of a target, the file at the path of that target holds its data; and the
files at paths to which nothing was written are as before. -/
def Materialised (env : Env) (w w' : World) (new : List Event) : Prop :=
  w'.trace = w.trace ++ new ∧
  (new = [] → w'.disk = w.disk) ∧
  (∀ target sum, new.getLast? = some (.verify target sum) →
    w'.disk.file (Join env.workSpacePath target.TargetPath) = some target.TargetData) ∧
  (∀ p, (∀ data, Event.write p data ∉ new) → w'.disk.file p = w.disk.file p)

/-- Every integrity check among the events comes directly after the write of the data of
the same target to the path of that target, and its checksum is the digest of that data:
the file is written first and checked afterwards. -/
def WriteThenVerify (env : Env) (events : List Event) : Prop :=
  ∀ before target sum after, events = before ++ Event.verify target sum :: after →
    sum = env.hash target.TargetData ∧
    ∃ earlier, before = earlier ++
      [Event.write (Join env.workSpacePath target.TargetPath) target.TargetData]

/-- No call fails while `receiveTarget` stores the target in the world `w`: the parent
directory is there or can be made, the path is not a directory, the file can be written
and its checksum computed. -/
def Stores (env : Env) (target : BuildTarget) (w : World) : Prop :=
  let _path := Join env.workSpacePath target.TargetPath
  let needDir := !w.disk.present _path && !w.disk.present (Dir _path)
  (needDir && env.mkdirAllFails (Dir _path)) = false ∧
  (if needDir then w.disk.mkdirAll (Dir _path) else w.disk).isDir _path = false ∧
  env.writeFileFails _path = false ∧
  env.checksumFails _path = false

/-! ## `run`: the connections -/

/-- The errors of `run`. -/
inductive RunErr where
  | noConnection
  | sendBuild (e : SendErr)
  deriving DecidableEq, Repr

/-- The slices that the loop over `listenAddresses` of `run` fills: `clients`, `conns`
(a connection is named by its address) and `errs` (an error is named by the address it
is about); `attempted` records the addresses for which `grpc.NewClient` was called. -/
structure Pool where
  attempted : List String
  clients : List BuildServiceClient
  conns : List String
  errs : List String

/-- The loop `for _, addr := range listenAddresses` of `run`; `dial addr` is the client
made of the connection that `grpc.NewClient(addr)` returns, `none` for an error. -/
def connectAll (dial : String → Option BuildServiceClient) : List String → Pool → Pool
  | [], pool => pool
  | addr :: addrs, pool =>
    match dial addr with
    | none =>
      connectAll dial addrs
        ⟨pool.attempted ++ [addr], pool.clients, pool.conns, pool.errs ++ [addr]⟩
    | some client =>
      connectAll dial addrs
        ⟨pool.attempted ++ [addr], pool.clients ++ [client], pool.conns ++ [addr], pool.errs⟩

/-- What `run` did and returned: the workspace and trace, the error, the addresses it
tried, the clients it gave to `sendBuild`, the connections closed by the deferred
function and the errors it printed. -/
structure RunResult where
  world : World
  err : Option RunErr
  attempted : List String
  clients : List BuildServiceClient
  closed : List String
  printed : List String

/-- Source: `run`. The result is `none` when the resolver ran out of fuel. -/
def run (env : Env) (dial : String → Option BuildServiceClient)
    (listenAddresses : List String) (fuel : Nat) (w : World) : Option RunResult :=
  let pool := connectAll dial listenAddresses ⟨[], [], [], []⟩
  if pool.clients.length = 0 then
    some ⟨w, some .noConnection, pool.attempted, [], [], pool.errs⟩
  else
    match sendBuild env fuel pool.clients w with
    | none => none
    | some (w, some err) =>
      some ⟨w, some (.sendBuild err), pool.attempted, pool.clients, pool.conns, []⟩
    | some (w, none) => some ⟨w, none, pool.attempted, pool.clients, pool.conns, []⟩

/-- Three addresses of which the second cannot be connected. -/
def dialTwoOfThree (addr : String) : Option BuildServiceClient :=
  if addr = "10.0.0.1:39090" then some worker0
  else if addr = "10.0.0.2:39090" then some worker1
  else none

/-! ## The resource policy of worker discovery (`consul/consul.go`) -/

namespace Consul

/-- Source: `Disk` of package `consul`. -/
structure Disk where
  Name : String
  Size : String
  deriving DecidableEq, Repr

/-- The loop `for _, item := range disks` of `fetchCompileDiskSize`: the size of the
first disk with the given name. -/
def sizeNamed (name : String) : List Disk → Option String
  | [] => none
  | item :: disks => if item.Name = name then some item.Size else sizeNamed name disks

/-- Source: `fetchCompileDiskSize`; `unmarshal` is `json.Unmarshal` into `[]Disk`, and
`none` stands for the error. -/
def fetchCompileDiskSize (unmarshal : String → Option (List Disk)) (disksInfo : String) :
    Option String :=
  match unmarshal disksInfo with
  | none => none
  | some disks =>
    match sizeNamed "/home" disks with
    | some size => some size
    | none => sizeNamed "/" disks

/-- The call `strings.Split(s, " ")`. -/
def splitSpace : List Char → List (List Char)
  | [] => [[]]
  | c :: cs =>
    if c = ' ' then [] :: splitSpace cs
    else
      match splitSpace cs with
      | [] => [[c]]
      | w :: ws => (c :: w) :: ws

/-- The value of a run of decimal digits, `none` if another character occurs. -/
def digitsValue : List Char → Nat → Option Nat
  | [], acc => some acc
  | c :: cs, acc =>
    if '0' ≤ c ∧ c ≤ '9' then digitsValue cs (acc * 10 + (c.toNat - '0'.toNat)) else none

/-- The function `strconv.Atoi` where `int` has 64 bits: an optional sign and at least
one decimal digit, with a value from `-2^63` to `2^63 - 1`; `none` stands for the
error. -/
def Atoi (s : List Char) : Option Int :=
  match s with
  | [] => none
  | c :: cs =>
    if c = '-' then
      if cs = [] then none
      else
        match digitsValue cs 0 with
        | none => none
        | some v => if v ≤ 2 ^ 63 then some (-(v : Int)) else none
    else
      let ds := if c = '+' then cs else c :: cs
      if ds = [] then none
      else
        match digitsValue ds 0 with
        | none => none
        | some v => if v < 2 ^ 63 then some (v : Int) else none

/-- Source: `isDiskSizeEnough`. -/
def isDiskSizeEnough (unmarshal : String → Option (List Disk)) (disksInfo : String) : Bool :=
  match fetchCompileDiskSize unmarshal disksInfo with
  | none => false
  | some homeCapacityInfo =>
    match splitSpace homeCapacityInfo.data with
    | amount :: sizeUnit :: _ =>
      if sizeUnit = "GB".data then
        match Atoi amount with
        | none => false
        | some num => decide (500 ≤ num)
      else if sizeUnit = "TB".data then true
      else false
    | _ => false

/-- Specification: the compile disk is the entry named `/home` if there is one,
otherwise the entry named `/`. -/
def specCompileDisk (disks : List Disk) : Option Disk :=
  match disks.find? (fun d => d.Name = "/home") with
  | some d => some d
  | none => disks.find? (fun d => d.Name = "/")

/-- Specification: the policy accepts a description that parses as a list of disks whose
compile disk has a size of at least two fields separated by single spaces, the second
field being `TB`, or being `GB` with a first field that `strconv.Atoi` reads as a number
of at least 500. -/
def SpecPolicy (unmarshal : String → Option (List Disk)) (disksInfo : String) : Prop :=
  ∃ disks, unmarshal disksInfo = some disks ∧
    ∃ disk, specCompileDisk disks = some disk ∧
      ∃ amount sizeUnit rest, splitSpace disk.Size.data = amount :: sizeUnit :: rest ∧
        (sizeUnit = "TB".data ∨
          (sizeUnit = "GB".data ∧ ∃ n, Atoi amount = some n ∧ 500 ≤ n))

/-- A decoder that always yields one disk `/home` of the given size. -/
def homeOnly (size : String) (_ : String) : Option (List Disk) :=
  some [⟨"/home", size⟩]

end Consul

/-! ## The descent of `walkDir` -/

/-- A plain step of the walk: `q` is an entry of the directory `p` that is not a link and
is a directory, so `walkDir` on `p` calls itself on `q`. -/
def PlainStep (fs : FS) (p q : String) : Prop :=
  ∃ entries name, fs.readDir p = .ok entries ∧ name ∈ entries ∧
    isSymlink fs (Join p name) = .ok false ∧ fs.stat (Join p name) = .ok true ∧
    q = Join p name

/-- A link step of the walk: an entry of the directory `p` is a link that resolves to
the directory `q`, so `walkDir` on `p` calls itself on `q`. -/
def LinkStep (fs : FS) (p q : String) : Prop :=
  ∃ entries name, fs.readDir p = .ok entries ∧ name ∈ entries ∧
    isSymlink fs (Join p name) = .ok true ∧ resolveSymlink fs (Join p name) = .ok q ∧
    q ≠ "" ∧ fs.stat q = .ok true

/-- The directory `q` is entered by `walkDir` from the directory `p`. -/
def Child (fs : FS) (p q : String) : Prop :=
  PlainStep fs p q ∨ LinkStep fs p q

/-- A workspace without a cycle: the include `/ws/inc` holds a file and a link to the
directory `/ext`, which holds a file and the directory `sub`. -/
def linkedFS : FS :=
  FS.ofList
    [("/ws/inc", .dir ["a.h", "ext"]),
     ("/ws/inc/a.h", .file),
     ("/ws/inc/ext", .link "../../ext"),
     ("/ext", .dir ["b.h", "sub"]),
     ("/ext/b.h", .file),
     ("/ext/sub", .dir ["c.h"]),
     ("/ext/sub/c.h", .file)]

/-- A workspace with a cycle: the entry `loop` of `/ws/inc` is a link to `/ws/inc`. -/
def loopFS : FS :=
  FS.ofList
    [("/ws/inc", .dir ["loop"]),
     ("/ws/inc/loop", .link ".")]

/-! ## Round-robin assignment -/

theorem dispatches_append (a b : List Event) :
    dispatches (a ++ b) = dispatches a ++ dispatches b := by
  induction a with
  | nil => rfl
  | cons e a ih => cases e <;> simp [dispatches, ih]

theorem receiveTarget_dispatches (env : Env) (target : BuildTarget) (w : World) :
    dispatches (receiveTarget env target w).1.trace = dispatches w.trace := by
  simp only [receiveTarget]
  split_ifs <;> (try split) <;> (try split_ifs) <;>
    simp [dispatches_append, dispatches]

theorem receiveTargets_dispatches (env : Env) :
    ∀ (targets : List BuildTarget) (w : World),
      dispatches (receiveTargets env targets w).1.trace = dispatches w.trace := by
  intro targets
  induction targets with
  | nil => intro w; rfl
  | cons target targets ih =>
    intro w
    have h := receiveTarget_dispatches env target w
    simp only [receiveTargets]
    split
    · next w1 e heq => rw [heq] at h; exact h
    · next w1 heq => rw [heq] at h; rw [ih]; exact h

theorem receiveBuildResponse_dispatches (env : Env) :
    ∀ (results : List RecvResult) (w : World),
      dispatches (receiveBuildResponse env results w).1.trace = dispatches w.trace := by
  intro results
  induction results with
  | nil => intro w; rfl
  | cons r results ih =>
    intro w
    cases r with
    | failure => rfl
    | reply result =>
      have h := receiveTargets_dispatches env result.BuildTargets w
      simp only [receiveBuildResponse]
      split
      · next w1 e heq => rw [heq] at h; exact h
      · next w1 heq => rw [heq] at h; rw [ih]; exact h

theorem sendUnits_dispatches (env : Env) (clients : List BuildServiceClient)
    (hne : clients ≠ []) :
    ∀ (items : List BuildInfo) (i : Nat) (w w' : World) (err : Option SendErr),
      sendUnits env clients i items w = (w', err) →
      ∃ cs : List BuildServiceClient, cs.length ≤ items.length ∧
        (err = none → cs.length = items.length) ∧ (items ≠ [] → 0 < cs.length) ∧
        dispatches w'.trace = dispatches w.trace ++ cs.zip items ∧
        ∀ k, k < cs.length → clients[(i + k) % clients.length]? = cs[k]? := by
  intro items
  induction items with
  | nil =>
    intro i w w' err h
    simp only [sendUnits, Prod.mk.injEq] at h
    obtain ⟨rfl, rfl⟩ := h
    exact ⟨[], by simp⟩
  | cons item items ih =>
    intro i w w' err h
    have hlt : i % clients.length < clients.length :=
      Nat.mod_lt _ (List.length_pos.mpr hne)
    have hc : clients[i % clients.length]? = some (clients[i % clients.length]) :=
      List.getElem?_eq_getElem hlt
    have one : ∀ (w1 : World) (e1 : Option SendErr),
        dispatches w1.trace =
          dispatches w.trace ++ [(clients[i % clients.length], item)] →
        e1 ≠ none → (w1, e1) = (w', err) →
        ∃ cs : List BuildServiceClient, cs.length ≤ (item :: items).length ∧
          (err = none → cs.length = (item :: items).length) ∧
          (item :: items ≠ [] → 0 < cs.length) ∧
          dispatches w'.trace = dispatches w.trace ++ cs.zip (item :: items) ∧
          ∀ k, k < cs.length → clients[(i + k) % clients.length]? = cs[k]? := by
      intro w1 e1 hd he heq
      simp only [Prod.mk.injEq] at heq
      obtain ⟨rfl, rfl⟩ := heq
      refine ⟨[clients[i % clients.length]], by simp, fun h0 => absurd h0 he, by simp,
        by simp [hd], ?_⟩
      intro k hk
      have : k = 0 := by simpa using hk
      subst this
      simp
    simp only [sendUnits, hc] at h
    split at h
    · exact one _ _ (by simp [dispatches_append, dispatches]) (by simp) h
    · split at h
      · exact one _ _ (by simp [dispatches_append, dispatches]) (by simp) h
      · next stream _ _ req hreq =>
        split at h
        · next w1 e hrecv =>
          have hd := receiveBuildResponse_dispatches env (stream.recv req)
            ⟨w.disk, w.trace ++ [.dispatch clients[i % clients.length] item]⟩
          rw [hrecv] at hd
          exact one _ _ (by simpa [dispatches_append, dispatches] using hd) (by simp) h
        · next w1 hrecv =>
          have hd := receiveBuildResponse_dispatches env (stream.recv req)
            ⟨w.disk, w.trace ++ [.dispatch clients[i % clients.length] item]⟩
          rw [hrecv] at hd
          obtain ⟨cs, hlen, hok, _, htr, hk⟩ := ih (i + 1) w1 w' err h
          refine ⟨clients[i % clients.length] :: cs, by simpa using hlen,
            fun h0 => by simpa using hok h0, by simp, ?_, ?_⟩
          · rw [htr, hd]
            simp [dispatches_append, dispatches]
          · intro k hk'
            cases k with
            | zero => simp
            | succ k =>
              have := hk k (by simpa using hk')
              simpa [Nat.add_assoc, Nat.add_comm 1 k] using this

/-- C1: in `sendBuild`, for a non-empty client list the unit at position `i` is given to
the client at position `i mod W`, which is a valid index: the dispatches made by a run
are, in order, the first `m` units each paired with `clients[i mod W]`; a run without
error dispatches every unit and a run with units dispatches at least the first. -/
theorem sendBuild_round_robin (env : Env) (fuel : Nat) (clients : List BuildServiceClient)
    (w w' : World) (err : Option SendErr) (units : List BuildInfo)
    (hne : clients ≠ [])
    (hunits : CompileDependency env.fs env.readJSON fuel env.workSpacePath env.compileFile
      = some (units, none))
    (hrun : sendBuild env fuel clients w = some (w', err)) :
    ∃ m, m ≤ units.length ∧ (err = none → m = units.length) ∧ (units ≠ [] → 0 < m) ∧
      (dispatches w'.trace).length = (dispatches w.trace).length + m ∧
      ∀ i, i < m → i % clients.length < clients.length ∧
        ∃ c u, clients[i % clients.length]? = some c ∧ units[i]? = some u ∧
          (dispatches w'.trace)[(dispatches w.trace).length + i]? = some (c, u) := by
  have hlt : ∀ i, i % clients.length < clients.length := fun i =>
    Nat.mod_lt _ (List.length_pos.mpr hne)
  simp only [sendBuild, hunits] at hrun
  split_ifs at hrun with h0
  · simp only [Option.some.injEq, Prod.mk.injEq] at hrun
    obtain ⟨rfl, rfl⟩ := hrun
    have : units = [] := List.length_eq_zero.mp h0
    subst this
    exact ⟨0, by simp⟩
  · simp only [Option.some.injEq] at hrun
    obtain ⟨cs, hlen, hok, hpos, htr, hk⟩ :=
      sendUnits_dispatches env clients hne units 0 w w' err hrun
    refine ⟨cs.length, hlen, hok, hpos, ?_, ?_⟩
    · rw [htr]; simp [Nat.min_eq_left hlen]
    · intro i hi
      refine ⟨hlt i, cs[i], units[i], ?_, ?_, ?_⟩
      · have := hk i hi
        rw [Nat.zero_add] at this
        rw [this]; exact List.getElem?_eq_getElem hi
      · exact List.getElem?_eq_getElem (Nat.lt_of_lt_of_le hi hlen)
      · rw [htr, List.getElem?_append_right (Nat.le_add_right _ _)]
        simp only [Nat.add_sub_cancel_left]
        rw [List.getElem?_eq_getElem (by simp; omega)]
        simp

/-- Witness of C1: two workers and the three units of `threeCommands`; the run gives
U0 to W0, U1 to W1 and U2 to W0. -/
theorem sendBuild_round_robin_witness :
    [worker0, worker1] ≠ [] ∧
    ∃ m, m ≤ threeUnits.length ∧ ((sendUnits threeEnv [worker0, worker1] 0 threeUnits
        ⟨threeDisk, []⟩).2 = none → m = threeUnits.length) ∧ (threeUnits ≠ [] → 0 < m) ∧
      (dispatches (sendUnits threeEnv [worker0, worker1] 0 threeUnits
        ⟨threeDisk, []⟩).1.trace).length = (dispatches []).length + m ∧
      ∀ i, i < m → i % [worker0, worker1].length < [worker0, worker1].length ∧
        ∃ c u, [worker0, worker1][i % [worker0, worker1].length]? = some c ∧
          threeUnits[i]? = some u ∧
          (dispatches (sendUnits threeEnv [worker0, worker1] 0 threeUnits
            ⟨threeDisk, []⟩).1.trace)[(dispatches []).length + i]? = some (c, u) :=
  ⟨by simp, sendBuild_round_robin threeEnv 0 [worker0, worker1] ⟨threeDisk, []⟩ _ _
    threeUnits (by simp) (by decide) rfl⟩

/-! ## `CompileDependency`: one unit per command -/

theorem compileCommands_ok (fs : FS) (fuel : Nat) (path : String) :
    ∀ (commands : List Command) (tasks : List BuildInfo),
      (∀ c ∈ commands, c.Includes ≠ [] →
        ∃ files, appendPathToInputFiles fs fuel path c.InputFiles c.Includes
          = some (files, none)) →
      ∃ units, compileCommands fs fuel path commands tasks = some (tasks ++ units, none) ∧
        List.Forall₂ (BuiltFrom fs fuel path) commands units := by
  intro commands
  induction commands with
  | nil => intro tasks _; exact ⟨[], by simp [compileCommands], List.Forall₂.nil⟩
  | cons c commands ih =>
    intro tasks h
    have hrest := fun c' hc' => h c' (List.mem_cons_of_mem _ hc')
    by_cases hinc : c.Includes = []
    · obtain ⟨units, hrun, hall⟩ := ih
        (tasks ++ [⟨parseCommand c.Command c.CompilerType, c.InputFiles,
          if c.OutputFile ≠ "" then [c.OutputFile] else []⟩]) hrest
      refine ⟨⟨parseCommand c.Command c.CompilerType, c.InputFiles,
          if c.OutputFile ≠ "" then [c.OutputFile] else []⟩ :: units, ?_,
        List.Forall₂.cons ⟨rfl, rfl, fun _ => rfl, fun h' => absurd hinc h'⟩ hall⟩
      simp only [compileCommands, hinc, List.length_nil, Nat.lt_irrefl, if_false, hrun]
      simp
    · obtain ⟨files, hfiles⟩ := h c (List.mem_cons_self _ _) hinc
      obtain ⟨units, hrun, hall⟩ := ih
        (tasks ++ [⟨parseCommand c.Command c.CompilerType, files,
          if c.OutputFile ≠ "" then [c.OutputFile] else []⟩]) hrest
      refine ⟨⟨parseCommand c.Command c.CompilerType, files,
          if c.OutputFile ≠ "" then [c.OutputFile] else []⟩ :: units, ?_,
        List.Forall₂.cons ⟨rfl, rfl, fun h' => absurd h' hinc, fun _ => hfiles⟩ hall⟩
      have hpos : 0 < c.Includes.length := List.length_pos.mpr hinc
      simp only [compileCommands, hpos, if_true, hfiles, hrun]
      simp

/-- C2: for a descriptor that decodes to `N` commands whose include expansions succeed,
`CompileDependency` returns exactly `N` units and no error, and unit `i` is built from
command `i`: its rule is `parseCommand` of the command text, its targets are
`[outputFile]` for a non-empty output file and `[]` otherwise, and its files are the
input files, expanded by the includes when there are any. -/
theorem CompileDependency_units (fs : FS) (readJSON : String → Descriptor) (fuel : Nat)
    (path filename : String) (compileInfo : CompileInfo)
    (hdesc : readJSON (Join (Join path "out") filename) = .decoded compileInfo)
    (hinc : ∀ c ∈ compileInfo.Commands, c.Includes ≠ [] →
      ∃ files, appendPathToInputFiles fs fuel path c.InputFiles c.Includes
        = some (files, none)) :
    ∃ units, CompileDependency fs readJSON fuel path filename = some (units, none) ∧
      units.length = compileInfo.Commands.length ∧
      ∀ (i : Nat) (c : Command), compileInfo.Commands[i]? = some c →
        ∃ u : BuildInfo, units[i]? = some u ∧
          u.BuildRule = parseCommand c.Command c.CompilerType ∧
          u.BuildTargets = (if c.OutputFile ≠ "" then [c.OutputFile] else []) ∧
          (c.Includes = [] → u.BuildFiles = c.InputFiles) ∧
          (c.Includes ≠ [] →
            appendPathToInputFiles fs fuel path c.InputFiles c.Includes
              = some (u.BuildFiles, none)) := by
  obtain ⟨units, hrun, hall⟩ := compileCommands_ok fs fuel path compileInfo.Commands [] hinc
  refine ⟨units, by simp [CompileDependency, hdesc, hrun], hall.length_eq.symm, ?_⟩
  intro i c hc
  obtain ⟨hi, rfl⟩ := List.getElem?_eq_some.mp hc
  have hi' : i < units.length := hall.length_eq ▸ hi
  refine ⟨units[i], List.getElem?_eq_getElem hi', ?_⟩
  have := (List.forall₂_iff_get.mp hall).2 i hi hi'
  simpa [BuiltFrom] using this

/-- Witness of C2: the descriptor and workspace of `TestCompileDependency`. -/
theorem CompileDependency_units_witness :
    ∃ units, CompileDependency testdataFS testdataJSON 2 "./testdata" "compile_info.json"
        = some (units, none) ∧
      units.length = 1 ∧
      ∀ (i : Nat) (c : Command),
        [(⟨"gcc", "gcc", ["file1.c", "file2.c"], "output.o", ["include1", "include2"],
          "test_module"⟩ : Command)][i]? = some c →
        ∃ u : BuildInfo, units[i]? = some u ∧
          u.BuildRule = parseCommand c.Command c.CompilerType ∧
          u.BuildTargets = (if c.OutputFile ≠ "" then [c.OutputFile] else []) ∧
          (c.Includes = [] → u.BuildFiles = c.InputFiles) ∧
          (c.Includes ≠ [] →
            appendPathToInputFiles testdataFS 2 "./testdata" c.InputFiles c.Includes
              = some (u.BuildFiles, none)) :=
  CompileDependency_units testdataFS testdataJSON 2 "./testdata" "compile_info.json"
    ⟨[⟨"gcc", "gcc", ["file1.c", "file2.c"], "output.o", ["include1", "include2"],
      "test_module"⟩]⟩ (by decide)
    (by
      intro c hc _
      have : c = ⟨"gcc", "gcc", ["file1.c", "file2.c"], "output.o", ["include1", "include2"],
        "test_module"⟩ := by simpa using hc
      subst this
      exact ⟨["file1.c", "file2.c", "include1/file3.c", "include2/file4.c"], by decide⟩)

/-! ## Include expansion only appends new paths -/

theorem Extends.refl (files : List String) : Extends files files :=
  ⟨[], by simp⟩

theorem Extends.trans {a b c : List String} (h₁ : Extends a b) (h₂ : Extends b c) :
    Extends a c := by
  obtain ⟨x, rfl, hx, hxa⟩ := h₁
  obtain ⟨y, rfl, hy, hyb⟩ := h₂
  refine ⟨x ++ y, by simp, ?_, ?_⟩
  · rw [List.nodup_append]
    refine ⟨hx, hy, ?_⟩
    intro z hzx hzy
    exact hyb z hzy (List.mem_append_right _ hzx)
  · intro z hz
    rcases List.mem_append.mp hz with hz | hz
    · exact hxa z hz
    · exact fun hza => hyb z hz (List.mem_append_left _ hza)

theorem addFile_extends (files : List String) (rel : String) :
    Extends files (addFile files rel) := by
  unfold addFile
  split_ifs with h
  · exact ⟨[rel], rfl, by simp, by simpa using h.2⟩
  · exact Extends.refl _

theorem walkEntries_extends (fs : FS) (dir : String)
    (walk : String → String → List String → WalkResult)
    (hwalk : ∀ p l f r, walk p l f = some r → Extends f r.1) (path linkPath : String) :
    ∀ (entries files : List String) (r : List String × Option TaskErr),
      walkEntries fs dir walk path linkPath entries files = some r → Extends files r.1 := by
  intro entries
  induction entries with
  | nil =>
    intro files r h
    simp only [walkEntries, Option.some.injEq] at h
    subst h; exact Extends.refl _
  | cons name entries ih =>
    intro files r h
    simp only [walkEntries] at h
    repeat' split at h
    all_goals
      first
      | exact ih _ _ h
      | exact (addFile_extends _ _).trans (ih _ _ h)
      | (cases h; exact Extends.refl _)
      | (rename_i hw; exact (hwalk _ _ _ _ hw).trans (ih _ _ h))
      | (rename_i hw; cases h; exact hwalk _ _ _ _ hw)
      | cases h

theorem walkDir_extends (fs : FS) (dir : String) :
    ∀ (fuel : Nat) (path linkPath : String) (files : List String)
      (r : List String × Option TaskErr),
      walkDir fs dir fuel path linkPath files = some r → Extends files r.1 := by
  intro fuel
  induction fuel with
  | zero => intro path linkPath files r h; simp [walkDir] at h
  | succ fuel ih =>
    intro path linkPath files r h
    simp only [walkDir] at h
    split at h
    · cases h; exact Extends.refl _
    · exact walkEntries_extends fs dir _ ih path linkPath _ _ _ h

theorem appendPathToInputFiles_extends (fs : FS) (fuel : Nat) (dir : String) :
    ∀ (includePath inputFiles : List String) (r : List String × Option TaskErr),
      appendPathToInputFiles fs fuel dir inputFiles includePath = some r →
      Extends inputFiles r.1 := by
  intro includePath
  induction includePath with
  | nil =>
    intro files r h
    simp only [appendPathToInputFiles, Option.some.injEq] at h
    subst h; exact Extends.refl _
  | cons item includePath ih =>
    intro files r h
    simp only [appendPathToInputFiles] at h
    repeat' split at h
    all_goals
      first
      | exact ih _ _ h
      | exact (addFile_extends _ _).trans (ih _ _ h)
      | (cases h; exact Extends.refl _)
      | (rename_i hw; exact (walkDir_extends fs dir _ _ _ _ _ hw).trans (ih _ _ h))
      | (rename_i hw; cases h; have hx := walkDir_extends fs dir _ _ _ _ _ hw; exact hx)
      | cases h

theorem Extends.count {files files' : List String} (h : Extends files files') (p : String) :
    (p ∈ files → files'.count p = files.count p) ∧ (p ∉ files → files'.count p ≤ 1) := by
  obtain ⟨added, rfl, hnd, hdis⟩ := h
  constructor
  · intro hp
    have : added.count p = 0 := List.count_eq_zero.mpr (fun hpa => hdis p hpa hp)
    simp [List.count_append, this]
  · intro hp
    have h1 : files.count p = 0 := List.count_eq_zero.mpr hp
    have h2 : added.count p ≤ 1 := List.nodup_iff_count_le_one.mp hnd p
    simp [List.count_append, h1, h2]

theorem Extends.nodup {files files' : List String} (h : Extends files files')
    (hnd : files.Nodup) : files'.Nodup := by
  obtain ⟨added, rfl, hadd, hdis⟩ := h
  rw [List.nodup_append]
  exact ⟨hnd, hadd, fun x hx hx' => hdis x hx' hx⟩

/-- C4: include expansion never appends a relative path that is already in the list and
never moves or removes an entry: whatever `appendPathToInputFiles` returns (with or
without an error) is the given list followed by pairwise distinct paths that are not in
the given list; so a path of the given list keeps its number of occurrences and every
other path occurs at most once, however often the include paths reach it. -/
theorem appendPathToInputFiles_first_seen (fs : FS) (fuel : Nat) (dir : String)
    (inputFiles includePath files : List String) (err : Option TaskErr)
    (h : appendPathToInputFiles fs fuel dir inputFiles includePath = some (files, err)) :
    (∃ added, files = inputFiles ++ added ∧ added.Nodup ∧ ∀ x ∈ added, x ∉ inputFiles) ∧
    ∀ p, (p ∈ inputFiles → files.count p = inputFiles.count p) ∧
      (p ∉ inputFiles → files.count p ≤ 1) :=
  ⟨appendPathToInputFiles_extends fs fuel dir includePath inputFiles _ h,
    fun p => (appendPathToInputFiles_extends fs fuel dir includePath inputFiles _ h).count p⟩

/-- Witness of C4: `inc/a.h` is an explicit input, `inc` is listed twice and its
subdirectory `inc/sub` once more; each file has one entry, where it was first seen. -/
theorem appendPathToInputFiles_first_seen_witness :
    appendPathToInputFiles nestedFS 3 "/ws" ["inc/a.h"] ["inc/sub", "inc", "inc"]
      = some (["inc/a.h", "inc/sub/b.h"], none) ∧
    ((∃ added, ["inc/a.h", "inc/sub/b.h"] = ["inc/a.h"] ++ added ∧ added.Nodup ∧
        ∀ x ∈ added, x ∉ ["inc/a.h"]) ∧
      ∀ p, (p ∈ ["inc/a.h"] → ["inc/a.h", "inc/sub/b.h"].count p = ["inc/a.h"].count p) ∧
        (p ∉ ["inc/a.h"] → ["inc/a.h", "inc/sub/b.h"].count p ≤ 1)) :=
  ⟨by decide,
    appendPathToInputFiles_first_seen nestedFS 3 "/ws" ["inc/a.h"] ["inc/sub", "inc", "inc"]
      ["inc/a.h", "inc/sub/b.h"] none (by decide)⟩

/-! ## Duplicates among the explicit input files -/

theorem compileCommands_inv (fs : FS) (fuel : Nat) (path : String) :
    ∀ (commands : List Command) (tasks result : List BuildInfo),
      compileCommands fs fuel path commands tasks = some (result, none) →
      ∃ units, result = tasks ++ units ∧
        List.Forall₂ (BuiltFrom fs fuel path) commands units := by
  intro commands
  induction commands with
  | nil =>
    intro tasks result h
    simp only [compileCommands, Option.some.injEq, Prod.mk.injEq, and_true] at h
    exact ⟨[], by simp [h], List.Forall₂.nil⟩
  | cons c commands ih =>
    intro tasks result h
    simp only [compileCommands] at h
    by_cases hinc : c.Includes = []
    · have hpos : ¬ 0 < c.Includes.length := by simp [hinc]
      rw [if_neg hpos] at h
      obtain ⟨units, rfl, hall⟩ := ih _ _ h
      exact ⟨⟨parseCommand c.Command c.CompilerType, c.InputFiles,
          if c.OutputFile ≠ "" then [c.OutputFile] else []⟩ :: units, by simp,
        List.Forall₂.cons ⟨rfl, rfl, fun _ => rfl, fun h' => absurd hinc h'⟩ hall⟩
    · have hpos : 0 < c.Includes.length := List.length_pos.mpr hinc
      rw [if_pos hpos] at h
      split at h
      · cases h
      · cases h
      · next files hfiles =>
        obtain ⟨units, rfl, hall⟩ := ih _ _ h
        exact ⟨⟨parseCommand c.Command c.CompilerType, files,
            if c.OutputFile ≠ "" then [c.OutputFile] else []⟩ :: units, by simp,
          List.Forall₂.cons ⟨rfl, rfl, fun h' => absurd h' hinc, fun _ => hfiles⟩ hall⟩

/-- C5, as the code has it: the file list of a returned unit is the command's
`inputFiles`, unchanged, followed by pairwise distinct paths that are not among them; it
is free of duplicates whenever the `inputFiles` of the command are. -/
theorem CompileDependency_files_nodup (fs : FS) (readJSON : String → Descriptor)
    (fuel : Nat) (path filename : String) (compileInfo : CompileInfo)
    (units : List BuildInfo)
    (hdesc : readJSON (Join (Join path "out") filename) = .decoded compileInfo)
    (hrun : CompileDependency fs readJSON fuel path filename = some (units, none)) :
    units.length = compileInfo.Commands.length ∧
    ∀ (i : Nat) (c : Command) (u : BuildInfo),
      compileInfo.Commands[i]? = some c → units[i]? = some u →
      (∃ added, u.BuildFiles = c.InputFiles ++ added ∧ added.Nodup ∧
        ∀ x ∈ added, x ∉ c.InputFiles) ∧
      (c.InputFiles.Nodup → u.BuildFiles.Nodup) := by
  simp only [CompileDependency, hdesc] at hrun
  obtain ⟨units', hu, hall⟩ := compileCommands_inv fs fuel path _ _ _ hrun
  simp only [List.nil_append] at hu
  subst hu
  refine ⟨hall.length_eq.symm, ?_⟩
  intro i c u hc hu
  obtain ⟨hi, rfl⟩ := List.getElem?_eq_some.mp hc
  obtain ⟨hi', rfl⟩ := List.getElem?_eq_some.mp hu
  obtain ⟨_, _, hnil, hcons⟩ := (List.forall₂_iff_get.mp hall).2 i hi hi'
  have hext : Extends compileInfo.Commands[i].InputFiles units[i].BuildFiles := by
    by_cases hinc : compileInfo.Commands[i].Includes = []
    · have := hnil hinc
      simp only [List.get_eq_getElem] at this
      rw [this]; exact Extends.refl _
    · exact appendPathToInputFiles_extends fs fuel path _ _ _ (hcons hinc)
  exact ⟨hext, hext.nodup⟩

/-- Witness of C5 as amended: the unit of `TestCompileDependency`. -/
theorem CompileDependency_files_nodup_witness :
    CompileDependency testdataFS testdataJSON 2 "./testdata" "compile_info.json"
      = some ([⟨"gcc", ["file1.c", "file2.c", "include1/file3.c", "include2/file4.c"],
          ["output.o"]⟩], none) ∧
    ["file1.c", "file2.c", "include1/file3.c", "include2/file4.c"].Nodup :=
  ⟨by decide,
    ((CompileDependency_files_nodup testdataFS testdataJSON 2 "./testdata"
      "compile_info.json"
      ⟨[⟨"gcc", "gcc", ["file1.c", "file2.c"], "output.o", ["include1", "include2"],
        "test_module"⟩]⟩
      [⟨"gcc", ["file1.c", "file2.c", "include1/file3.c", "include2/file4.c"],
        ["output.o"]⟩] (by decide) (by decide)).2 0 _ _ rfl rfl).2 (by decide)⟩

/-- Counterexample to C5: a command whose `inputFiles` repeat a path and which has no
includes is resolved without error into a unit whose file list repeats that path. -/
theorem CompileDependency_files_dup :
    CompileDependency nestedFS repeatedInputJSON 0 "/ws" "compile.json"
      = some ([⟨"gcc -c a.c", ["a.c", "a.c"], ["a.o"]⟩], none) ∧
    ¬ (["a.c", "a.c"] : List String).Nodup := by
  constructor
  · decide
  · decide

/-! ## The order of the file list -/

theorem walkEntries_refines (fs : FS) (dir : String)
    (walk : String → String → List String → WalkResult)
    (enumerate : String → String → Option (List String))
    (hwalk : ∀ p l f f', walk p l f = some (f', none) →
      ∃ found, enumerate p l = some found ∧ f' = found.foldl addFile f)
    (path linkPath : String) :
    ∀ (entries files files' : List String),
      walkEntries fs dir walk path linkPath entries files = some (files', none) →
      ∃ found, specEnumerateEntries fs dir enumerate path linkPath entries = some found ∧
        files' = found.foldl addFile files := by
  intro entries
  induction entries with
  | nil =>
    intro files files' h
    simp only [walkEntries, Option.some.injEq, Prod.mk.injEq, and_true] at h
    exact ⟨[], rfl, h.symm⟩
  | cons name entries ih =>
    intro files files' h
    simp only [walkEntries] at h
    repeat' split at h
    all_goals
      first
      | exact absurd h (by simp)
      | (obtain ⟨found, hs, hf⟩ := ih _ _ h
         exact ⟨found, by simp [specEnumerateEntries, specResolve, *], hf⟩)
      | (obtain ⟨found, hs, hf⟩ := ih _ _ h
         refine ⟨_ :: found, ?_, hf⟩
         simp [specEnumerateEntries, specResolve, *])
      | (rename_i hw
         obtain ⟨below, hb, hfb⟩ := hwalk _ _ _ _ hw
         obtain ⟨found, hs, hf⟩ := ih _ _ h
         refine ⟨below ++ found, ?_, ?_⟩
         · simp [specEnumerateEntries, specResolve, *]
         · rw [List.foldl_append, ← hfb]; exact hf)

theorem walkDir_refines (fs : FS) (dir : String) :
    ∀ (fuel : Nat) (path linkPath : String) (files files' : List String),
      walkDir fs dir fuel path linkPath files = some (files', none) →
      ∃ found, specEnumerate fs dir fuel path linkPath = some found ∧
        files' = found.foldl addFile files := by
  intro fuel
  induction fuel with
  | zero => intro path linkPath files files' h; simp [walkDir] at h
  | succ fuel ih =>
    intro path linkPath files files' h
    simp only [walkDir] at h
    split at h
    · exact absurd h (by simp)
    · next entries hrd =>
      obtain ⟨found, hs, hf⟩ :=
        walkEntries_refines fs dir _ (specEnumerate fs dir fuel) ih path linkPath _ _ _ h
      exact ⟨found, by simp [specEnumerate, hrd, hs], hf⟩

theorem appendPathToInputFiles_refines (fs : FS) (fuel : Nat) (dir : String) :
    ∀ (includePath inputFiles files : List String),
      appendPathToInputFiles fs fuel dir inputFiles includePath = some (files, none) →
      ∃ found, specExpand fs fuel dir includePath = some found ∧
        files = found.foldl addFile inputFiles := by
  intro includePath
  induction includePath with
  | nil =>
    intro files files' h
    simp only [appendPathToInputFiles, Option.some.injEq, Prod.mk.injEq, and_true] at h
    exact ⟨[], rfl, h.symm⟩
  | cons item includePath ih =>
    intro files files' h
    simp only [appendPathToInputFiles] at h
    repeat' split at h
    all_goals
      first
      | exact absurd h (by simp)
      | (obtain ⟨found, hs, hf⟩ := ih _ _ h
         exact ⟨found, by simp [specExpand, specResolve, *], hf⟩)
      | (obtain ⟨found, hs, hf⟩ := ih _ _ h
         refine ⟨_ :: found, ?_, hf⟩
         simp [specExpand, specResolve, *])
      | (rename_i hw
         obtain ⟨below, hb, hfb⟩ := walkDir_refines fs dir _ _ _ _ _ hw
         obtain ⟨found, hs, hf⟩ := ih _ _ h
         refine ⟨below ++ found, ?_, ?_⟩
         · simp [specExpand, specResolve, *]
         · rw [List.foldl_append, ← hfb]; exact hf)

theorem foldl_addFile_spec :
    ∀ (found files : List String),
      ∃ added, found.foldl addFile files = files ++ added ∧ added.Sublist found ∧
        ∀ x ∈ found, 0 < x.length → x ∈ found.foldl addFile files := by
  intro found
  induction found with
  | nil => intro files; exact ⟨[], by simp⟩
  | cons c found ih =>
    intro files
    obtain ⟨added, heq, hsub, hall⟩ := ih (addFile files c)
    have hmono : ∀ x, x ∈ addFile files c → x ∈ found.foldl addFile (addFile files c) := by
      intro x hx; rw [heq]; exact List.mem_append_left _ hx
    simp only [List.foldl_cons]
    by_cases hc : 0 < c.length ∧ c ∉ files
    · have hadd : addFile files c = files ++ [c] := by simp [addFile, hc]
      refine ⟨c :: added, by rw [heq, hadd]; simp, hsub.cons₂ c, ?_⟩
      intro x hx hpos
      rcases List.mem_cons.mp hx with rfl | hx
      · exact hmono _ (by rw [hadd]; simp)
      · exact hall x hx hpos
    · have hadd : addFile files c = files := by simp only [addFile, if_neg hc]
      refine ⟨added, by rw [heq, hadd], hsub.cons c, ?_⟩
      intro x hx hpos
      rcases List.mem_cons.mp hx with rfl | hx
      · refine hmono _ ?_
        rw [hadd]
        by_contra hx'
        exact hc ⟨hpos, hx'⟩
      · exact hall x hx hpos

/-- C3: when `appendPathToInputFiles` succeeds, the returned list begins with the explicit
input files, unchanged and in their order, and what follows are the paths of the include
expansion in the order of the specification's enumeration (include-list order, and
inside a directory depth first in listing order), each kept at its first occurrence:
the result is the fold of the guarded append over that enumeration. -/
theorem appendPathToInputFiles_order (fs : FS) (fuel : Nat) (dir : String)
    (inputFiles includePath files : List String)
    (h : appendPathToInputFiles fs fuel dir inputFiles includePath = some (files, none)) :
    inputFiles <+: files ∧
    ∃ found added, specExpand fs fuel dir includePath = some found ∧
      files = found.foldl addFile inputFiles ∧
      files = inputFiles ++ added ∧ added.Sublist found ∧
      ∀ x ∈ found, 0 < x.length → x ∈ files := by
  obtain ⟨found, hs, hf⟩ := appendPathToInputFiles_refines fs fuel dir _ _ _ h
  obtain ⟨added, heq, hsub, hall⟩ := foldl_addFile_spec found inputFiles
  rw [← hf] at heq hall
  exact ⟨⟨added, heq.symm⟩, found, added, hs, hf, heq, hsub, hall⟩

/-- Witness of C3: the workspace, inputs and includes of `TestAppendPathToInputFiles`. -/
theorem appendPathToInputFiles_order_witness :
    appendPathToInputFiles projectFS 2 "/home/user/project" ["file1.txt", "file2.txt"]
        ["include1", "include2"]
      = some (["file1.txt", "file2.txt", "include1/file3.txt", "include2/file4.txt"], none) ∧
    specExpand projectFS 2 "/home/user/project" ["include1", "include2"]
      = some ["include1/file3.txt", "include2/file4.txt"] ∧
    ["file1.txt", "file2.txt"] <+:
      ["file1.txt", "file2.txt", "include1/file3.txt", "include2/file4.txt"] :=
  ⟨by decide, by decide,
    (appendPathToInputFiles_order projectFS 2 "/home/user/project"
      ["file1.txt", "file2.txt"] ["include1", "include2"]
      ["file1.txt", "file2.txt", "include1/file3.txt", "include2/file4.txt"]
      (by decide)).1⟩

/-! ## `parseCommand` -/

theorem dropLit_append (lit s : List Char) : dropLit lit (lit ++ s) = some s := by
  induction lit with
  | nil => cases s <;> rfl
  | cons l lit ih => simp [dropLit, ih]

theorem takeWhile_alnum (ver r : List Char) (hver : ∀ c ∈ ver, isAlnum c = true) :
    (ver ++ '/' :: r).takeWhile isAlnum = ver ∧ (ver ++ '/' :: r).dropWhile isAlnum = '/' :: r := by
  induction ver with
  | nil =>
    have : isAlnum '/' = false := by decide
    simp [List.takeWhile, List.dropWhile, this]
  | cons c ver ih =>
    have hc : isAlnum c = true := hver c (List.mem_cons_self _ _)
    obtain ⟨h1, h2⟩ := ih (fun x hx => hver x (List.mem_cons_of_mem _ hx))
    simp [List.takeWhile, List.dropWhile, hc, h1, h2]

theorem matchClang_front (ver rest : List Char) (hne : ver ≠ [])
    (hver : ∀ c ∈ ver, isAlnum c = true) :
    matchClang (clangHead ++ ver ++ "/bin/clang".data ++ rest)
      = some (clangHead.length + ver.length + 10, "clang".data) := by
  have hshape : clangHead ++ ver ++ "/bin/clang".data ++ rest
      = clangHead ++ (ver ++ '/' :: ("bin/".data ++ ("clang".data ++ rest))) := by
    simp
  obtain ⟨h1, h2⟩ := takeWhile_alnum ver ("bin/".data ++ ("clang".data ++ rest)) hver
  have h3 : dropLit "/bin/".data ('/' :: ("bin/".data ++ ("clang".data ++ rest)))
      = some ("clang".data ++ rest) := dropLit_append "/bin/".data _
  rw [hshape]
  simp only [matchClang, dropLit_append, h1, h2, h3, if_neg hne]

theorem replaceClang_skip (pre rest : List Char) :
    replaceClang pre.length (pre ++ rest) = replaceClang 0 rest := by
  induction pre with
  | nil => rfl
  | cons c pre ih => simpa [replaceClang] using ih

theorem replaceClang_match (c : Char) (cs : List Char) (n : Nat) (group : List Char)
    (h : matchClang (c :: cs) = some (n, group)) :
    replaceClang 0 (c :: cs) = group ++ replaceClang (n - 1) cs := by
  simp only [replaceClang, h]

theorem replaceClang_front (ver rest : List Char) (hne : ver ≠ [])
    (hver : ∀ c ∈ ver, isAlnum c = true) :
    replaceClang 0 (clangHead ++ ver ++ "/bin/clang".data ++ rest)
      = "clang".data ++ replaceClang 0 rest := by
  have hm := matchClang_front ver rest hne hver
  have hhead : clangHead = 'p' :: clangHead.tail := by decide
  have hcons : clangHead ++ ver ++ "/bin/clang".data ++ rest
      = 'p' :: ((clangHead.tail ++ ver ++ "/bin/clang".data) ++ rest) := by
    conv_lhs => rw [hhead]
    simp
  have hlen : clangHead.length + ver.length + 10 - 1
      = (clangHead.tail ++ ver ++ "/bin/clang".data).length := by
    have h10 : "/bin/clang".data.length = 10 := by decide
    have hp : clangHead.length = clangHead.tail.length + 1 := by decide
    simp only [List.length_append, h10, hp]
    omega
  rw [hcons] at hm ⊢
  rw [replaceClang_match _ _ _ _ hm, hlen, replaceClang_skip]

theorem dropLit_some (lit : List Char) :
    ∀ s r : List Char, dropLit lit s = some r → s = lit ++ r := by
  induction lit with
  | nil =>
    intro s r h
    cases s <;> simp only [dropLit, Option.some.injEq] at h <;> rw [← h] <;> rfl
  | cons l lit ih =>
    intro s r h
    cases s with
    | nil => simp [dropLit] at h
    | cons c cs =>
      simp only [dropLit] at h
      split_ifs at h with hlc
      rw [hlc, ih cs r h]
      rfl

theorem matchClang_some (s : List Char) (n : Nat) (group : List Char)
    (h : matchClang s = some (n, group)) :
    ∃ ver rest : List Char, ver ≠ [] ∧ (∀ c ∈ ver, isAlnum c = true) ∧
      s = clangHead ++ ver ++ "/bin/clang".data ++ rest ∧
      n = clangHead.length + ver.length + 10 ∧ group = "clang".data := by
  simp only [matchClang] at h
  split at h
  · cases h
  · next r1 h1 =>
    split_ifs at h with hv
    split at h
    · cases h
    · next r2 h2 =>
      split at h
      · cases h
      · next r3 h3 =>
        simp only [Option.some.injEq, Prod.mk.injEq] at h
        refine ⟨r1.takeWhile isAlnum, r3, hv, fun c hc => List.mem_takeWhile_imp hc, ?_,
          h.1.symm, h.2.symm⟩
        have e1 := dropLit_some _ _ _ h1
        have e2 := dropLit_some _ _ _ h2
        have e3 := dropLit_some _ _ _ h3
        have e4 : "/bin/clang".data = "/bin/".data ++ "clang".data := by decide
        rw [e1, e4]
        conv_lhs => rw [← List.takeWhile_append_dropWhile isAlnum r1, e2, e3]
        simp only [List.append_assoc]

theorem matchClang_none (s : List Char) : matchClang s = none ↔ ¬ StartsWithClang s := by
  constructor
  · rintro h ⟨ver, rest, hne, hver, rfl⟩
    rw [matchClang_front ver rest hne hver] at h
    cases h
  · intro h
    cases hm : matchClang s with
    | none => rfl
    | some r =>
      obtain ⟨ver, rest, hne, hver, hs, -, -⟩ := matchClang_some s r.1 r.2 hm
      exact absurd ⟨ver, rest, hne, hver, hs⟩ h

theorem replaceClang_copy (post : List Char) :
    ∀ pre : List Char,
      (∀ a b : List Char, pre = a ++ b → b ≠ [] → ¬ StartsWithClang (b ++ post)) →
      replaceClang 0 (pre ++ post) = pre ++ replaceClang 0 post := by
  intro pre
  induction pre with
  | nil => intro _; rfl
  | cons c pre ih =>
    intro h
    have hnone : matchClang (c :: (pre ++ post)) = none :=
      (matchClang_none _).mpr (h [] (c :: pre) rfl (by simp))
    have hrest := ih (fun a b hab hb => h (c :: a) b (by rw [hab]; rfl) hb)
    show replaceClang 0 (c :: (pre ++ post)) = c :: (pre ++ replaceClang 0 post)
    simp only [replaceClang, hnone, hrest]

theorem not_containsClang (s : List Char)
    (h : ∀ post ∈ s.tails, matchClang post = none) : ¬ ContainsClang s := by
  rintro ⟨pre, post, hs, hstart⟩
  have hmem : post ∈ s.tails := (List.mem_tails _ _).mpr ⟨pre, hs.symm⟩
  exact (matchClang_none post).mp (h post hmem) hstart

/-- C6, as the code has it: for a compiler type other than `clang` and `clang++` the
command is returned unchanged; for these two, the command is rewritten from left to right:
where the text starts with an occurrence of
`prebuilts/clang/host/linux-x86/clang-<one or more letters or digits>/bin/clang`, the
occurrence is replaced by `clang` and the rewriting goes on behind it; a stretch of text
in which no occurrence starts is copied as it is; so a command that contains no occurrence
is returned unchanged. The occurrences are those of the pattern (`StartsWithClang`), not
of the matcher. -/
theorem parseCommand_pattern (command compiletype : String) :
    (compiletype ≠ "clang" ∧ compiletype ≠ "clang++" →
      parseCommand command compiletype = command) ∧
    (compiletype = "clang" ∨ compiletype = "clang++" →
      (∀ ver rest : List Char, ver ≠ [] → (∀ c ∈ ver, isAlnum c = true) →
        command.data = clangHead ++ ver ++ "/bin/clang".data ++ rest →
        parseCommand command compiletype
          = ⟨"clang".data ++ (parseCommand ⟨rest⟩ compiletype).data⟩) ∧
      (∀ pre post : List Char, command.data = pre ++ post →
        (∀ a b : List Char, pre = a ++ b → b ≠ [] → ¬ StartsWithClang (b ++ post)) →
        parseCommand command compiletype
          = ⟨pre ++ (parseCommand ⟨post⟩ compiletype).data⟩) ∧
      (¬ ContainsClang command.data → parseCommand command compiletype = command)) := by
  constructor
  · rintro ⟨h1, h2⟩
    simp [parseCommand, h1, h2]
  · intro ht
    have hp : ∀ s : String, parseCommand s compiletype = ⟨replaceClang 0 s.data⟩ := by
      intro s; simp only [parseCommand, if_pos ht]
    refine ⟨?_, ?_, ?_⟩
    · intro ver rest hne hver hdata
      rw [hp, hp, hdata, replaceClang_front ver rest hne hver]
    · intro pre post hdata hfree
      rw [hp, hp, hdata, replaceClang_copy post pre hfree]
    · intro hfree
      rw [hp]
      have h := replaceClang_copy [] command.data (fun a b hab _ hstart =>
        hfree ⟨a, b, hab, by simpa using hstart⟩)
      rw [List.append_nil] at h
      rw [h, replaceClang, List.append_nil]

/-- Witness of C6 as amended: the versioned `prebuilts` path is replaced by the binary
name and the text behind it is kept; the rule with `/opt/toolchains/` contains no
occurrence of the pattern and is returned as it is. -/
theorem parseCommand_pattern_witness :
    parseCommand "prebuilts/clang/host/linux-x86/clang-r123/bin/clang++ -c x.cpp" "clang++"
      = "clang++ -c x.cpp" ∧
    ¬ ContainsClang
      "/opt/toolchains/clang/host/linux-x86/clang-r123/bin/clang++ -c x.cpp".data ∧
    parseCommand "/opt/toolchains/clang/host/linux-x86/clang-r123/bin/clang++ -c x.cpp"
        "clang++"
      = "/opt/toolchains/clang/host/linux-x86/clang-r123/bin/clang++ -c x.cpp" :=
  ⟨((parseCommand_pattern "prebuilts/clang/host/linux-x86/clang-r123/bin/clang++ -c x.cpp"
      "clang++").2 (Or.inr rfl)).1 "r123".data "++ -c x.cpp".data (by decide) (by decide)
      (by decide) |>.trans (by decide),
    not_containsClang _ (by decide),
    ((parseCommand_pattern
      "/opt/toolchains/clang/host/linux-x86/clang-r123/bin/clang++ -c x.cpp"
      "clang++").2 (Or.inr rfl)).2.2 (not_containsClang _ (by decide))⟩

/-- Counterexample to C6: the rule of the specification's example does not contain the
pattern of `clangPattern`, so it is returned as it is. -/
theorem parseCommand_toolchains_unchanged :
    parseCommand "/opt/toolchains/clang/host/linux-x86/clang-r123/bin/clang++ -c x.cpp"
        "clang++"
      = "/opt/toolchains/clang/host/linux-x86/clang-r123/bin/clang++ -c x.cpp" ∧
    parseCommand "/opt/toolchains/clang/host/linux-x86/clang-r123/bin/clang++ -c x.cpp"
        "clang++"
      ≠ "clang++ -c x.cpp" := by
  constructor
  · decide
  · decide

/-! ## Files below a link are named by the alias -/

theorem NamedByAlias.file (fs : FS) (dir path linkPath name rel : String)
    (all files : List String)
    (hrd : fs.readDir path = .ok all) (hname : name ∈ all)
    (hres : ∃ real, specResolve fs (Join path name) = some (some (real, false)))
    (hrel : Rel dir (Join linkPath name) = some rel) :
    NamedByAlias fs dir path linkPath files (addFile files rel) := by
  intro x hx
  obtain ⟨real, hreal⟩ := hres
  unfold addFile at hx
  split_ifs at hx
  · rcases List.mem_append.mp hx with hx | hx
    · exact Or.inl hx
    · have : x = rel := by simpa using hx
      subst this
      exact Or.inr ⟨[name], ⟨all, hrd, hname, real, Or.inl ⟨rfl, hreal⟩⟩, by simpa using hrel⟩
  · exact Or.inl hx

theorem NamedByAlias.dir (fs : FS) (dir path linkPath name : String)
    (all files files' : List String)
    (hrd : fs.readDir path = .ok all) (hname : name ∈ all)
    (hres : ∃ real, specResolve fs (Join path name) = some (some (real, true)) ∧
      NamedByAlias fs dir real (Join linkPath name) files files') :
    NamedByAlias fs dir path linkPath files files' := by
  intro x hx
  obtain ⟨real, hreal, hnamed⟩ := hres
  rcases hnamed x hx with hx | ⟨names, hbelow, hrel⟩
  · exact Or.inl hx
  · exact Or.inr ⟨name :: names, ⟨all, hrd, hname, real, Or.inr ⟨hreal, hbelow⟩⟩,
      by simpa using hrel⟩

theorem NamedByAlias.chain {fs : FS} {dir path linkPath : String} {a b c : List String}
    (h₁ : NamedByAlias fs dir path linkPath a b) (h₂ : NamedByAlias fs dir path linkPath b c) :
    NamedByAlias fs dir path linkPath a c := by
  intro x hx
  rcases h₂ x hx with hx | h
  · exact h₁ x hx
  · exact Or.inr h

theorem NamedByAlias.same (fs : FS) (dir path linkPath : String) (a : List String) :
    NamedByAlias fs dir path linkPath a a :=
  fun _ hx => Or.inl hx

theorem walkEntries_named (fs : FS) (dir : String)
    (walk : String → String → List String → WalkResult)
    (hwalk : ∀ p l f r, walk p l f = some r → NamedByAlias fs dir p l f r.1)
    (path linkPath : String) (all : List String) (hrd : fs.readDir path = .ok all) :
    ∀ (entries : List String), (∀ n ∈ entries, n ∈ all) →
      ∀ (files : List String) (r : List String × Option TaskErr),
      walkEntries fs dir walk path linkPath entries files = some r →
      NamedByAlias fs dir path linkPath files r.1 := by
  intro entries
  induction entries with
  | nil =>
    intro _ files r h
    simp only [walkEntries, Option.some.injEq] at h
    subst h; exact NamedByAlias.same _ _ _ _ _
  | cons name entries ih =>
    intro hsub files r h
    have hname : name ∈ all := hsub name (List.mem_cons_self _ _)
    have ih' := ih (fun n hn => hsub n (List.mem_cons_of_mem _ hn))
    simp only [walkEntries] at h
    repeat' split at h
    all_goals
      first
      | exact ih' _ _ h
      | (cases h; exact NamedByAlias.same _ _ _ _ _)
      | (rename_i hrel
         exact (NamedByAlias.file fs dir path linkPath name _ all _ hrd hname
           (by simp [specResolve, *]) hrel).chain (ih' _ _ h))
      | (rename_i hw
         exact (NamedByAlias.dir fs dir path linkPath name all _ _ hrd hname
           ⟨_, by simp [specResolve, *], hwalk _ _ _ _ hw⟩).chain (ih' _ _ h))
      | (rename_i hw
         cases h
         exact NamedByAlias.dir fs dir path linkPath name all _ _ hrd hname
           ⟨_, by simp [specResolve, *], hwalk _ _ _ _ hw⟩)
      | cases h

theorem walkDir_named (fs : FS) (dir : String) :
    ∀ (fuel : Nat) (path linkPath : String) (files : List String)
      (r : List String × Option TaskErr),
      walkDir fs dir fuel path linkPath files = some r →
      NamedByAlias fs dir path linkPath files r.1 := by
  intro fuel
  induction fuel with
  | zero => intro path linkPath files r h; simp [walkDir] at h
  | succ fuel ih =>
    intro path linkPath files r h
    simp only [walkDir] at h
    split at h
    · cases h; exact NamedByAlias.same _ _ _ _ _
    · next all hrd =>
      exact walkEntries_named fs dir _ ih path linkPath all hrd all (fun _ hn => hn) _ _ h

/-- An include entry that is a symlink for which `resolveSymlink` finds the directory
`real` is enumerated under the alias: every path that `appendPathToInputFiles` returns for
it is one of the given input files or is the path of the link, `Join dir item`, joined
with the names leading from `real` down to a file (through nested links as well), taken
relative to `dir`; the location `real` does not occur in the name. -/
theorem symlink_include_named_by_alias (fs : FS) (fuel : Nat) (dir item real : String)
    (inputFiles files : List String) (err : Option TaskErr)
    (hlink : isSymlink fs (Join dir item) = .ok true)
    (hres : resolveSymlink fs (Join dir item) = .ok real) (hne : real ≠ "")
    (hdir : fs.stat real = .ok true)
    (h : appendPathToInputFiles fs fuel dir inputFiles [item] = some (files, err)) :
    ∀ x ∈ files, x ∈ inputFiles ∨
      ∃ names, Below fs real names ∧
        Rel dir (names.foldl Join (Join dir item)) = some x := by
  simp only [appendPathToInputFiles, hlink, hres, if_neg hne, hdir] at h
  split at h
  · cases h
  · next f e hw =>
    simp only [Option.some.injEq, Prod.mk.injEq] at h
    have := walkDir_named fs dir fuel real (Join dir item) inputFiles _ hw
    rw [← h.1]; exact this
  · next f hw =>
    simp only [Option.some.injEq, Prod.mk.injEq] at h
    have := walkDir_named fs dir fuel real (Join dir item) inputFiles _ hw
    rw [← h.1]; exact this

/-- The include `inc` of `/ws` is a link with the relative text `../ext/real`, and
`/ext/real/more` is a link to `/other/deep`; the files are named `inc/a.h` and
`inc/more/b.h`. -/
theorem symlink_include_named_by_alias_witness :
    appendPathToInputFiles aliasFS 3 "/ws" ["x.c"] ["inc"]
      = some (["x.c", "inc/a.h", "inc/more/b.h"], none) ∧
    ∀ x ∈ ["x.c", "inc/a.h", "inc/more/b.h"], x ∈ ["x.c"] ∨
      ∃ names, Below aliasFS "/ext/real" names ∧
        Rel "/ws" (names.foldl Join (Join "/ws" "inc")) = some x :=
  ⟨by decide,
    symlink_include_named_by_alias aliasFS 3 "/ws" "inc" "/ext/real" ["x.c"]
      ["x.c", "inc/a.h", "inc/more/b.h"] none rfl rfl (by decide) rfl (by decide)⟩

/-! ## Links on which the resolver gives up are skipped -/

theorem Unresolved.resolve {fs : FS} {p : String} (h : Unresolved fs p) :
    isSymlink fs p = .ok true ∧ resolveSymlink fs p = .ok "" := by
  obtain ⟨hl, target, hr, ht⟩ := h
  refine ⟨hl, ?_⟩
  simp only [resolveSymlink, isSymlink, hl, hr]
  cases he : fs.evalSymlinks (Join (Dir p) target) with
  | error e => rfl
  | ok real =>
    rw [he] at ht
    rcases ht with rfl | ⟨e, hs⟩
    · simp
    · by_cases hreal : real = ""
      · simp [hreal]
      · simp [hreal, hs]

theorem walkEntries_without (fs : FS) (dir parent name : String)
    (walk : String → String → List String → WalkResult) (path linkPath : String) :
    ∀ (entries files : List String),
      walkEntries (fs.without parent name) dir walk path linkPath entries files
        = walkEntries fs dir walk path linkPath entries files := by
  intro entries
  induction entries with
  | nil => intro files; rfl
  | cons n entries ih =>
    intro files
    have h1 : ∀ p, isSymlink (fs.without parent name) p = isSymlink fs p := fun _ => rfl
    have h2 : ∀ p, resolveSymlink (fs.without parent name) p = resolveSymlink fs p :=
      fun _ => rfl
    have h3 : (fs.without parent name).stat = fs.stat := rfl
    simp only [walkEntries, h1, h2, h3, ih]

theorem walkEntries_skip (fs : FS) (dir : String)
    (walk : String → String → List String → WalkResult) (path linkPath name : String)
    (hd : Unresolved fs (Join path name)) (entries files : List String) :
    walkEntries fs dir walk path linkPath (name :: entries) files
      = walkEntries fs dir walk path linkPath entries files := by
  obtain ⟨h1, h2⟩ := hd.resolve
  simp only [walkEntries, h1, h2, if_true]

theorem walkEntries_filter (fs : FS) (dir : String)
    (walk : String → String → List String → WalkResult) (path linkPath name : String)
    (hd : Unresolved fs (Join path name)) :
    ∀ (entries files : List String),
      walkEntries fs dir walk path linkPath (entries.filter (· ≠ name)) files
        = walkEntries fs dir walk path linkPath entries files := by
  intro entries
  induction entries with
  | nil => intro files; rfl
  | cons n entries ih =>
    intro files
    by_cases hn : n = name
    · subst hn
      have : (n :: entries).filter (· ≠ n) = entries.filter (· ≠ n) := by
        simp [List.filter]
      rw [this, walkEntries_skip fs dir walk path linkPath n hd]
      exact ih files
    · have : (n :: entries).filter (· ≠ name) = n :: entries.filter (· ≠ name) := by
        simp [List.filter, hn]
      rw [this]
      simp only [walkEntries, ih]

theorem walkDir_without (fs : FS) (dir parent name : String)
    (hd : Unresolved fs (Join parent name)) :
    ∀ (fuel : Nat) (path linkPath : String) (files : List String),
      walkDir (fs.without parent name) dir fuel path linkPath files
        = walkDir fs dir fuel path linkPath files := by
  intro fuel
  induction fuel with
  | zero => intro path linkPath files; rfl
  | succ fuel ih =>
    intro path linkPath files
    have hfun : walkDir (fs.without parent name) dir fuel = walkDir fs dir fuel := by
      funext p l f; exact ih p l f
    simp only [walkDir, hfun]
    by_cases hp : path = parent
    · subst hp
      have hrd : (fs.without path name).readDir path
          = match fs.readDir path with
            | .error e => .error e
            | .ok entries => .ok (entries.filter (· ≠ name)) := by
        simp [FS.without]
      rw [hrd]
      cases hfs : fs.readDir path with
      | error e => rfl
      | ok entries =>
        simp only [walkEntries_without]
        exact walkEntries_filter fs dir _ path linkPath name hd entries files
    · have hrd : (fs.without parent name).readDir path = fs.readDir path := by
        simp [FS.without, hp]
      rw [hrd]
      cases hfs : fs.readDir path with
      | error e => rfl
      | ok entries => simp only [walkEntries_without]

theorem appendPathToInputFiles_without (fs : FS) (fuel : Nat) (dir parent name : String)
    (hd : Unresolved fs (Join parent name)) :
    ∀ (includePath inputFiles : List String),
      appendPathToInputFiles (fs.without parent name) fuel dir inputFiles includePath
        = appendPathToInputFiles fs fuel dir inputFiles includePath := by
  intro includePath
  induction includePath with
  | nil => intro files; rfl
  | cons item includePath ih =>
    intro files
    have h1 : ∀ p, isSymlink (fs.without parent name) p = isSymlink fs p := fun _ => rfl
    have h2 : ∀ p, resolveSymlink (fs.without parent name) p = resolveSymlink fs p :=
      fun _ => rfl
    have h3 : (fs.without parent name).stat = fs.stat := rfl
    simp only [appendPathToInputFiles, h1, h2, h3, ih, walkDir_without fs dir parent name hd]

theorem appendPathToInputFiles_skip (fs : FS) (fuel : Nat) (dir item : String)
    (hd : Unresolved fs (Join dir item)) (after : List String) :
    ∀ (before inputFiles : List String),
      appendPathToInputFiles fs fuel dir inputFiles (before ++ item :: after)
        = appendPathToInputFiles fs fuel dir inputFiles (before ++ after) := by
  obtain ⟨h1, h2⟩ := hd.resolve
  intro before
  induction before with
  | nil =>
    intro files
    simp only [List.nil_append, appendPathToInputFiles, h1, h2, if_true]
  | cons b before ih =>
    intro files
    rw [List.cons_append, List.cons_append]
    simp only [appendPathToInputFiles, ih]

theorem Dangling.unresolved {fs : FS} {p text : String} (hd : Dangling fs p)
    (htext : fs.readlink p = .ok text)
    (heval : fs.evalSymlinks (Join (Dir p) text) = fs.evalSymlinks p)
    (hstat : ∀ real, fs.evalSymlinks p = .ok real → fs.stat real = fs.stat p) :
    Unresolved fs p := by
  obtain ⟨hl, e, hs⟩ := hd
  refine ⟨hl, text, htext, ?_⟩
  rw [heval]
  cases he : fs.evalSymlinks p with
  | error _ => trivial
  | ok real => exact Or.inr ⟨e, by rw [hstat real he, hs]⟩

/-- A symlink on which `resolveSymlink` gives up is skipped without an error, at the top
level and at any depth: an include item that names it can be taken out of the include
list without changing what `appendPathToInputFiles` returns (list and error), an include
list made of that item alone returns the input files and no error, and taking the entry
that names it out of its directory listing does not change the result either. -/
theorem unresolved_symlink_skipped (fs : FS) (fuel : Nat) (dir link : String)
    (inputFiles : List String) (hd : Unresolved fs link) :
    (∀ before item after, Join dir item = link →
      appendPathToInputFiles fs fuel dir inputFiles (before ++ item :: after)
        = appendPathToInputFiles fs fuel dir inputFiles (before ++ after)) ∧
    (∀ item, Join dir item = link →
      appendPathToInputFiles fs fuel dir inputFiles [item] = some (inputFiles, none)) ∧
    (∀ parent name includePath, Join parent name = link →
      appendPathToInputFiles (fs.without parent name) fuel dir inputFiles includePath
        = appendPathToInputFiles fs fuel dir inputFiles includePath) := by
  refine ⟨?_, ?_, ?_⟩
  · intro before item after hitem
    subst hitem
    exact appendPathToInputFiles_skip fs fuel dir item hd after before inputFiles
  · intro item hitem
    subst hitem
    have := appendPathToInputFiles_skip fs fuel dir item hd [] [] inputFiles
    simpa [appendPathToInputFiles] using this
  · intro parent name includePath hlink
    subst hlink
    exact appendPathToInputFiles_without fs fuel dir parent name hd includePath inputFiles

/-- The entry `/ws/inc/gone` is a link with a relative text that leads nowhere, in a
directory that is enumerated; the result is the one of the workspace whose listing of
`/ws/inc` does not show it. -/
theorem unresolved_symlink_skipped_witness :
    Unresolved danglingFS "/ws/inc/gone" ∧
    appendPathToInputFiles danglingFS 2 "/ws" [] ["lost", "inc"]
      = some (["inc/a.h", "inc/b.h"], none) ∧
    appendPathToInputFiles (danglingFS.without "/ws/inc" "gone") 2 "/ws" [] ["lost", "inc"]
      = appendPathToInputFiles danglingFS 2 "/ws" [] ["lost", "inc"] :=
  ⟨⟨rfl, "../missing/dir", rfl, trivial⟩, by decide,
    (unresolved_symlink_skipped danglingFS 2 "/ws" "/ws/inc/gone" []
      ⟨rfl, "../missing/dir", rfl, trivial⟩).2.2 "/ws/inc" "gone" ["lost", "inc"]
      (by decide)⟩

/-! ## A link with an absolute text -/

theorem NamedByInclude.unchanged (fs : FS) (dir : String) (includePath a : List String) :
    NamedByInclude fs dir includePath a a :=
  fun _ hx => Or.inl hx

theorem NamedByInclude.skip {fs : FS} {dir item : String} {includePath a b : List String}
    (h : NamedByInclude fs dir includePath a b) :
    NamedByInclude fs dir (item :: includePath) a b := by
  intro x hx
  rcases h x hx with hx | ⟨i, hi, h⟩
  · exact Or.inl hx
  · exact Or.inr ⟨i, List.mem_cons_of_mem _ hi, h⟩

theorem NamedByInclude.fileItem {fs : FS} {dir item rel : String} {includePath a b : List String}
    (hrel : Rel dir (Join dir item) = some rel)
    (h : NamedByInclude fs dir includePath (addFile a rel) b) :
    NamedByInclude fs dir (item :: includePath) a b := by
  intro x hx
  rcases h x hx with hx | ⟨i, hi, h⟩
  · unfold addFile at hx
    split_ifs at hx
    · rcases List.mem_append.mp hx with hx | hx
      · exact Or.inl hx
      · have : x = rel := by simpa using hx
        subst this
        exact Or.inr ⟨item, List.mem_cons_self _ _, Or.inl hrel⟩
    · exact Or.inl hx
  · exact Or.inr ⟨i, List.mem_cons_of_mem _ hi, h⟩

theorem NamedByInclude.dirItem {fs : FS} {dir item real : String} {includePath a f b : List String}
    (hres : specResolve fs (Join dir item) = some (some (real, true)))
    (hwalk : NamedByAlias fs dir real (Join dir item) a f)
    (h : NamedByInclude fs dir includePath f b) :
    NamedByInclude fs dir (item :: includePath) a b := by
  intro x hx
  rcases h x hx with hx | ⟨i, hi, h⟩
  · rcases hwalk x hx with hx | ⟨names, hbelow, hrel⟩
    · exact Or.inl hx
    · exact Or.inr ⟨item, List.mem_cons_self _ _, Or.inr ⟨real, names, hres, hbelow, hrel⟩⟩
  · exact Or.inr ⟨i, List.mem_cons_of_mem _ hi, h⟩

/-- Whatever include expansion adds is named by the alias, for every include list and at
every depth: a link that the resolver follows, as an include item or as an entry below
one, gives its own path to the files found behind it. -/
theorem appendPathToInputFiles_named (fs : FS) (fuel : Nat) (dir : String) :
    ∀ (includePath inputFiles : List String) (r : List String × Option TaskErr),
      appendPathToInputFiles fs fuel dir inputFiles includePath = some r →
      NamedByInclude fs dir includePath inputFiles r.1 := by
  intro includePath
  induction includePath with
  | nil =>
    intro files r h
    simp only [appendPathToInputFiles, Option.some.injEq] at h
    subst h; exact NamedByInclude.unchanged _ _ _ _
  | cons item includePath ih =>
    intro files r h
    simp only [appendPathToInputFiles] at h
    repeat' split at h
    all_goals
      first
      | exact (ih _ _ h).skip
      | (cases h; exact NamedByInclude.unchanged _ _ _ _)
      | (rename_i hrel
         exact NamedByInclude.fileItem hrel (ih _ _ h))
      | (rename_i hw
         exact NamedByInclude.dirItem (by simp [specResolve, *])
           (walkDir_named fs dir _ _ _ _ _ hw) (ih _ _ h))
      | (rename_i hw
         cases h
         exact NamedByInclude.dirItem (by simp [specResolve, *])
           (walkDir_named fs dir _ _ _ _ _ hw) (NamedByInclude.unchanged _ _ _ _))
      | cases h

/-- C7 fails on the code at a link with an absolute text. The entry `/ws/inc/l` is a link
to the directory `/ext/real`, which holds `b.h`. With the absolute text `/ext/real` the
resolver evaluates the text joined to the directory of the link, `/ws/inc/ext/real`,
finds nothing, gives up on the link, and the expansion of `inc` returns `inc/a.h` alone:
the file behind the link is not listed under the alias. With the relative text
`../../ext/real` the same link gives `inc/l/b.h`. -/
theorem absolute_link_not_enumerated :
    LinksToDir (outsideFS "/ext/real") "/ws/inc/l" "/ext/real" ∧
    (outsideFS "/ext/real").readDir "/ext/real" = .ok ["b.h"] ∧
    (outsideFS "/ext/real").stat "/ext/real/b.h" = .ok false ∧
    Join (Dir "/ws/inc/l") "/ext/real" = "/ws/inc/ext/real" ∧
    resolveSymlink (outsideFS "/ext/real") "/ws/inc/l" = .ok "" ∧
    appendPathToInputFiles (outsideFS "/ext/real") 3 "/ws" [] ["inc"]
      = some (["inc/a.h"], none) ∧
    LinksToDir (outsideFS "../../ext/real") "/ws/inc/l" "/ext/real" ∧
    resolveSymlink (outsideFS "../../ext/real") "/ws/inc/l" = .ok "/ext/real" ∧
    appendPathToInputFiles (outsideFS "../../ext/real") 3 "/ws" [] ["inc"]
      = some (["inc/a.h", "inc/l/b.h"], none) :=
  ⟨⟨rfl, rfl, rfl⟩, rfl, rfl, by decide, rfl, by decide, ⟨rfl, rfl, rfl⟩, rfl, by decide⟩

/-- C8 fails on the code at a dangling link with an absolute text. The entry `/ws/inc2/l`
is a link with the text `/inc`, and nothing exists at `/inc`: the link is dangling. The
resolver evaluates the text joined to the directory of the link, `/ws/inc2/inc`, which
is a directory of the workspace, and enumerates it under the alias: the result has
`inc2/l/a.h`, which the workspace without the link does not give. -/
theorem dangling_absolute_link_followed :
    Dangling strayFS "/ws/inc2/l" ∧
    strayFS.readlink "/ws/inc2/l" = .ok "/inc" ∧
    strayFS.lstat "/inc" = .error .notExist ∧
    Join (Dir "/ws/inc2/l") "/inc" = "/ws/inc2/inc" ∧
    resolveSymlink strayFS "/ws/inc2/l" = .ok "/ws/inc2/inc" ∧
    appendPathToInputFiles strayFS 3 "/ws" [] ["inc2"]
      = some (["inc2/inc/a.h", "inc2/l/a.h"], none) ∧
    appendPathToInputFiles (strayFS.without "/ws/inc2" "l") 3 "/ws" [] ["inc2"]
      = some (["inc2/inc/a.h"], none) :=
  ⟨⟨rfl, .notExist, rfl⟩, rfl, rfl, by decide, rfl, by decide, by decide⟩

/-! ## A missing include path fails the whole resolution -/

theorem appendPathToInputFiles_append (fs : FS) (fuel : Nat) (dir : String)
    (rest : List String) :
    ∀ (before inputFiles : List String),
      appendPathToInputFiles fs fuel dir inputFiles (before ++ rest)
        = match appendPathToInputFiles fs fuel dir inputFiles before with
          | none => none
          | some (files, some e) => some (files, some e)
          | some (files, none) => appendPathToInputFiles fs fuel dir files rest := by
  intro before
  induction before with
  | nil => intro files; simp [appendPathToInputFiles]
  | cons b before ih =>
    intro files
    rw [List.cons_append]
    simp only [appendPathToInputFiles, ih]
    repeat' split
    all_goals simp_all

theorem compileCommands_append (fs : FS) (fuel : Nat) (path : String)
    (rest : List Command) :
    ∀ (pre : List Command) (tasks : List BuildInfo),
      compileCommands fs fuel path (pre ++ rest) tasks
        = match compileCommands fs fuel path pre tasks with
          | none => none
          | some (_, some e) => some ([], some e)
          | some (tasks', none) => compileCommands fs fuel path rest tasks' := by
  intro pre
  induction pre with
  | nil => intro tasks; simp [compileCommands]
  | cons c pre ih =>
    intro tasks
    rw [List.cons_append]
    simp only [compileCommands, ih]
    repeat' split
    all_goals simp_all

/-- C9: a command that lists an include path which does not exist fails the whole
resolution. If the commands before it and the includes before the missing one are
resolved within the fuel (with or without error), then `appendPathToInputFiles` returns
an error for that command, which is the "not exist" error of the missing path when the
includes before it succeed, and `CompileDependency` returns an error and no build
unit, whatever the commands before it produced. -/
theorem missing_include_fails (fs : FS) (readJSON : String → Descriptor) (fuel : Nat)
    (path filename : String) (compileInfo : CompileInfo) (pre post : List Command)
    (c : Command) (before after : List String) (item : String)
    (hdesc : readJSON (Join (Join path "out") filename) = .decoded compileInfo)
    (hcmds : compileInfo.Commands = pre ++ c :: post)
    (hinc : c.Includes = before ++ item :: after)
    (hmissing : fs.lstat (Join path item) = .error .notExist)
    (hpre : CompileDependency fs (fun _ => .decoded ⟨pre⟩) fuel path filename ≠ none)
    (hbefore : appendPathToInputFiles fs fuel path c.InputFiles before ≠ none) :
    (∃ files e, appendPathToInputFiles fs fuel path c.InputFiles c.Includes
      = some (files, some e)) ∧
    (∀ files, appendPathToInputFiles fs fuel path c.InputFiles before = some (files, none) →
      appendPathToInputFiles fs fuel path c.InputFiles c.Includes
        = some (files, some (.pathNotExist (Join path item)))) ∧
    (∃ e, CompileDependency fs readJSON fuel path filename = some ([], some e)) := by
  have hstep : ∀ files, appendPathToInputFiles fs fuel path files (item :: after)
      = some (files, some (.pathNotExist (Join path item))) := by
    intro files
    simp only [appendPathToInputFiles, isSymlink, hmissing]
  have happ := appendPathToInputFiles_append fs fuel path (item :: after) before c.InputFiles
  rw [← hinc] at happ
  have h1 : ∃ files e, appendPathToInputFiles fs fuel path c.InputFiles c.Includes
      = some (files, some e) := by
    rcases hb : appendPathToInputFiles fs fuel path c.InputFiles before with _ | ⟨files, _ | e⟩
    · exact absurd hb hbefore
    · rw [hb] at happ; exact ⟨files, _, happ.trans (hstep files)⟩
    · rw [hb] at happ; exact ⟨files, e, happ⟩
  refine ⟨h1, ?_, ?_⟩
  · intro files hb
    rw [hb] at happ
    exact happ.trans (hstep files)
  · obtain ⟨files, e, he⟩ := h1
    have hpos : 0 < c.Includes.length := by rw [hinc]; simp
    have hc : ∀ tasks, compileCommands fs fuel path (c :: post) tasks
        = some ([], some (.appendInclude e)) := by
      intro tasks
      simp only [compileCommands, if_pos hpos, he]
    have hall := compileCommands_append fs fuel path (c :: post) pre []
    simp only [CompileDependency] at hpre
    simp only [CompileDependency, hdesc, hcmds]
    rcases hp : compileCommands fs fuel path pre [] with _ | ⟨tasks', _ | e'⟩
    · exact absurd hp hpre
    · rw [hp] at hall; exact ⟨_, hall.trans (hc tasks')⟩
    · rw [hp] at hall; exact ⟨e', hall⟩

/-- Witness of C9: the second command of `missingIncludeJSON` lists `nope` after `inc`;
the first command and `inc` are resolved, and the run returns the error and no unit. -/
theorem missing_include_fails_witness :
    CompileDependency nestedFS missingIncludeJSON 3 "/ws" "compile.json"
      = some ([], some (.appendInclude (.pathNotExist "/ws/nope"))) ∧
    (∃ e, CompileDependency nestedFS missingIncludeJSON 3 "/ws" "compile.json"
      = some ([], some e)) :=
  ⟨by decide,
    (missing_include_fails nestedFS missingIncludeJSON 3 "/ws" "compile.json"
      ⟨[⟨"gcc -c a.c", "gcc", ["a.c"], "a.o", ["inc"], ""⟩,
        ⟨"gcc -c b.c", "gcc", ["b.c"], "b.o", ["inc", "nope", "inc/sub"], ""⟩,
        ⟨"gcc -c c.c", "gcc", ["c.c"], "c.o", [], ""⟩]⟩
      [⟨"gcc -c a.c", "gcc", ["a.c"], "a.o", ["inc"], ""⟩]
      [⟨"gcc -c c.c", "gcc", ["c.c"], "c.o", [], ""⟩]
      ⟨"gcc -c b.c", "gcc", ["b.c"], "b.o", ["inc", "nope", "inc/sub"], ""⟩
      ["inc"] ["inc/sub"] "nope" rfl rfl rfl rfl (by decide) (by decide)).2.2⟩

/-! ## A checksum mismatch aborts the batch -/

theorem Verified.nil : Verified [] := by
  intro t s h; simp at h

theorem Verified.append {a b : List Event} (ha : Verified a) (hb : Verified b) :
    Verified (a ++ b) := by
  intro t s h
  rcases List.mem_append.mp h with h | h
  · exact ha t s h
  · exact hb t s h

theorem Verified.mkdir (p : String) : Verified [.mkdir p] := by
  intro t s h; simp at h

theorem Verified.write (p : String) (data : Bytes) : Verified [.write p data] := by
  intro t s h; simp at h

theorem Verified.dispatch (c : BuildServiceClient) (u : BuildInfo) :
    Verified [.dispatch c u] := by
  intro t s h; simp at h

theorem Verified.verify (t : BuildTarget) (sum : String) (hsum : ¬ sum ≠ t.Checksum) :
    Verified [.verify t sum] := by
  intro t' s h
  simp only [List.mem_singleton, Event.verify.injEq] at h
  rw [h.1, h.2]
  exact not_not.mp hsum

theorem EndsAtMismatch.ok {events : List Event} {m : Prop} (hm : ¬ m)
    (h : Verified events) : EndsAtMismatch events m :=
  ⟨fun h' => absurd h' hm, fun _ => h⟩

theorem EndsAtMismatch.after {a b : List Event} {m : Prop} (ha : Verified a)
    (hb : EndsAtMismatch b m) : EndsAtMismatch (a ++ b) m := by
  refine ⟨fun hm => ?_, fun hm => ha.append (hb.2 hm)⟩
  obtain ⟨before, t, s, rfl, hne, hv⟩ := hb.1 hm
  exact ⟨a ++ before, t, s, by simp, hne, ha.append hv⟩

theorem EndsAtMismatch.last {events : List Event} {m : Prop} (h : EndsAtMismatch events m)
    (target : BuildTarget) (sum : String) (hmem : Event.verify target sum ∈ events)
    (hne : sum ≠ target.Checksum) :
    m ∧ events.getLast? = some (.verify target sum) := by
  by_cases hm : m
  · obtain ⟨before, t, s, rfl, _, hv⟩ := h.1 hm
    refine ⟨hm, ?_⟩
    rcases List.mem_append.mp hmem with hb | hl
    · exact absurd (hv _ _ hb) hne
    · have : Event.verify target sum = Event.verify t s := by simpa using hl
      rw [this]; simp
  · exact absurd (h.2 hm _ _ hmem) hne

theorem receiveTarget_trace (env : Env) (target : BuildTarget) (w : World) :
    ∃ new, (receiveTarget env target w).1.trace = w.trace ++ new ∧
      EndsAtMismatch new ((receiveTarget env target w).2 = some .mismatch) := by
  simp only [receiveTarget]
  generalize Join env.workSpacePath target.TargetPath = p
  split_ifs with h1 h2 h3
  all_goals (try split)
  all_goals (try split_ifs)
  all_goals
    first
    | (refine ⟨[], ?_, .ok ?_ .nil⟩
       · simp
       · simp)
    | (refine ⟨[.mkdir (Dir p)], ?_, .ok ?_ (.mkdir _)⟩
       · simp
       · simp)
    | (refine ⟨[.write p target.TargetData], ?_, .ok ?_ (.write _ _)⟩
       · simp
       · simp)
    | (refine ⟨[.mkdir (Dir p), .write p target.TargetData], ?_,
         .ok ?_ ((Verified.mkdir _).append (.write _ _))⟩
       · simp
       · simp)
    | (rename_i k _
       refine ⟨[.write p (target.TargetData.take k)], ?_, .ok ?_ (.write _ _)⟩
       · simp
       · simp)
    | (rename_i k _
       refine ⟨[.mkdir (Dir p), .write p (target.TargetData.take k)], ?_,
         .ok ?_ ((Verified.mkdir _).append (.write _ _))⟩
       · simp
       · simp)
    | (rename_i sum _ hne
       refine ⟨[.write p target.TargetData, .verify target sum], ?_,
        ⟨fun _ => ⟨[.write p target.TargetData], target, sum, rfl, hne, .write _ _⟩,
          fun h => absurd rfl h⟩⟩
       · simp)
    | (rename_i sum _ hne
       refine ⟨[.mkdir (Dir p), .write p target.TargetData, .verify target sum], ?_,
        ⟨fun _ => ⟨[.mkdir (Dir p), .write p target.TargetData], target, sum, rfl, hne,
          (Verified.mkdir _).append (.write _ _)⟩, fun h => absurd rfl h⟩⟩
       · simp)
    | (rename_i sum _ heq
       refine ⟨[.write p target.TargetData, .verify target sum], ?_,
        .ok ?_ ((Verified.write _ _).append (.verify _ _ heq))⟩
       · simp
       · simp)
    | (rename_i sum _ heq
       refine ⟨[.mkdir (Dir p), .write p target.TargetData, .verify target sum], ?_,
        .ok ?_ (((Verified.mkdir _).append (.write _ _)).append (.verify _ _ heq))⟩
       · simp
       · simp)

theorem EndsAtMismatch.congr {events : List Event} {m m' : Prop} (hiff : m ↔ m')
    (h : EndsAtMismatch events m) : EndsAtMismatch events m' :=
  ⟨fun hm => h.1 (hiff.mpr hm), fun hm => h.2 (fun h' => hm (hiff.mp h'))⟩

theorem receiveTargets_trace (env : Env) :
    ∀ (targets : List BuildTarget) (w : World),
      ∃ new, (receiveTargets env targets w).1.trace = w.trace ++ new ∧
        EndsAtMismatch new ((receiveTargets env targets w).2 = some .mismatch) := by
  intro targets
  induction targets with
  | nil =>
    intro w
    exact ⟨[], by simp [receiveTargets], .ok (by simp [receiveTargets]) .nil⟩
  | cons target targets ih =>
    intro w
    obtain ⟨n1, h1, hm1⟩ := receiveTarget_trace env target w
    rcases hr : receiveTarget env target w with ⟨w1, _ | e⟩
    · rw [hr] at h1 hm1
      obtain ⟨n2, h2, hm2⟩ := ih w1
      refine ⟨n1 ++ n2, ?_, ?_⟩
      · simp only [receiveTargets, hr]
        rw [h2, h1, List.append_assoc]
      · simp only [receiveTargets, hr]
        exact EndsAtMismatch.after (hm1.2 (by simp)) hm2
    · rw [hr] at h1 hm1
      exact ⟨n1, by simpa only [receiveTargets, hr] using h1,
        by simpa only [receiveTargets, hr] using hm1⟩

theorem receiveBuildResponse_trace (env : Env) :
    ∀ (results : List RecvResult) (w : World),
      ∃ new, (receiveBuildResponse env results w).1.trace = w.trace ++ new ∧
        EndsAtMismatch new ((receiveBuildResponse env results w).2 = some .mismatch) := by
  intro results
  induction results with
  | nil =>
    intro w
    exact ⟨[], by simp [receiveBuildResponse], .ok (by simp [receiveBuildResponse]) .nil⟩
  | cons r results ih =>
    intro w
    cases r with
    | failure =>
      exact ⟨[], by simp [receiveBuildResponse], .ok (by simp [receiveBuildResponse]) .nil⟩
    | reply result =>
      obtain ⟨n1, h1, hm1⟩ := receiveTargets_trace env result.BuildTargets w
      rcases hr : receiveTargets env result.BuildTargets w with ⟨w1, _ | e⟩
      · rw [hr] at h1 hm1
        obtain ⟨n2, h2, hm2⟩ := ih w1
        refine ⟨n1 ++ n2, ?_, ?_⟩
        · simp only [receiveBuildResponse, hr]
          rw [h2, h1, List.append_assoc]
        · simp only [receiveBuildResponse, hr]
          exact EndsAtMismatch.after (hm1.2 (by simp)) hm2
      · rw [hr] at h1 hm1
        exact ⟨n1, by simpa only [receiveBuildResponse, hr] using h1,
          by simpa only [receiveBuildResponse, hr] using hm1⟩

theorem sendUnits_trace (env : Env) (clients : List BuildServiceClient) :
    ∀ (items : List BuildInfo) (i : Nat) (w : World),
      ∃ new, (sendUnits env clients i items w).1.trace = w.trace ++ new ∧
        EndsAtMismatch new
          ((sendUnits env clients i items w).2 = some (.buildResponse .mismatch)) := by
  intro items
  induction items with
  | nil =>
    intro i w
    exact ⟨[], by simp [sendUnits], .ok (by simp [sendUnits]) .nil⟩
  | cons item items ih =>
    intro i w
    simp only [sendUnits]
    split
    · exact ⟨[], by simp, .ok (by simp) .nil⟩
    · next client _ =>
      split
      · exact ⟨[.dispatch client item], by simp, .ok (by simp) (.dispatch _ _)⟩
      · next stream _ =>
        split
        · exact ⟨[.dispatch client item], by simp, .ok (by simp) (.dispatch _ _)⟩
        · next req _ =>
          obtain ⟨n1, h1, hm1⟩ := receiveBuildResponse_trace env (stream.recv req)
            ⟨w.disk, w.trace ++ [.dispatch client item]⟩
          split
          · next w1 e hr =>
            rw [hr] at h1 hm1
            refine ⟨[.dispatch client item] ++ n1, by simpa using h1, ?_⟩
            exact EndsAtMismatch.after (.dispatch _ _) (hm1.congr (by simp))
          · next w1 hr =>
            rw [hr] at h1 hm1
            obtain ⟨n2, h2, hm2⟩ := ih (i + 1) w1
            refine ⟨[.dispatch client item] ++ (n1 ++ n2), ?_, ?_⟩
            · rw [h2, h1]; simp
            · exact EndsAtMismatch.after (.dispatch _ _)
                (EndsAtMismatch.after (hm1.2 (by simp)) hm2)

/-- C10: a received target whose recomputed checksum differs from the received one ends
the run. In every run of `sendBuild`, and in every call of `receiveBuildResponse`, if the
events added to the trace contain the verification of such a target, then the result is
the mismatch error and that verification is the last event: no later target, reply
message or unit is dispatched, written or verified. -/
theorem checksum_mismatch_aborts (env : Env) (fuel : Nat)
    (clients : List BuildServiceClient) (w w' : World) (err : Option SendErr)
    (hrun : sendBuild env fuel clients w = some (w', err)) :
    (∃ new, w'.trace = w.trace ++ new ∧
      ∀ target sum, Event.verify target sum ∈ new → sum ≠ target.Checksum →
        err = some (.buildResponse .mismatch) ∧
        new.getLast? = some (.verify target sum)) ∧
    (∀ (results : List RecvResult) (w₀ : World),
      ∃ new, (receiveBuildResponse env results w₀).1.trace = w₀.trace ++ new ∧
        ∀ target sum, Event.verify target sum ∈ new → sum ≠ target.Checksum →
          (receiveBuildResponse env results w₀).2 = some .mismatch ∧
          new.getLast? = some (.verify target sum)) := by
  constructor
  · simp only [sendBuild] at hrun
    split at hrun
    · cases hrun
    · simp only [Option.some.injEq, Prod.mk.injEq] at hrun
      obtain ⟨rfl, rfl⟩ := hrun
      exact ⟨[], by simp, fun t s h => by simp at h⟩
    · split_ifs at hrun
      · simp only [Option.some.injEq, Prod.mk.injEq] at hrun
        obtain ⟨rfl, rfl⟩ := hrun
        exact ⟨[], by simp, fun t s h => by simp at h⟩
      · next buf _ _ =>
        simp only [Option.some.injEq] at hrun
        obtain ⟨new, htrace, hends⟩ := sendUnits_trace env clients buf 0 w
        rw [hrun] at htrace hends
        exact ⟨new, htrace, fun t s hmem hne => hends.last t s hmem hne⟩
  · intro results w₀
    obtain ⟨new, htrace, hends⟩ := receiveBuildResponse_trace env results w₀
    exact ⟨new, htrace, fun t s hmem hne => hends.last t s hmem hne⟩

/-- Witness of C10: the first worker answers the first unit with the target `out/bin`
and the checksum `deadbeef`; the run stops there with the mismatch error, the later
targets `out/lib` and `out/doc` and the two later units are not touched. -/
theorem checksum_mismatch_aborts_witness :
    (sendUnits threeEnv [corruptWorker, worker1] 0 threeUnits ⟨threeDisk, []⟩).2
      = some (.buildResponse .mismatch) ∧
    (sendUnits threeEnv [corruptWorker, worker1] 0 threeUnits ⟨threeDisk, []⟩).1.trace
      = [.dispatch corruptWorker ⟨"gcc -c a.c", ["a.c"], ["a.o"]⟩, .mkdir "/ws/out",
         .write "/ws/out/bin" [1, 2], .verify ⟨"out/bin", [1, 2], "deadbeef"⟩ "3"] ∧
    ∃ new, (sendUnits threeEnv [corruptWorker, worker1] 0 threeUnits
        ⟨threeDisk, []⟩).1.trace = [] ++ new ∧
      ∀ target sum, Event.verify target sum ∈ new → sum ≠ target.Checksum →
        (sendUnits threeEnv [corruptWorker, worker1] 0 threeUnits ⟨threeDisk, []⟩).2
          = some (.buildResponse .mismatch) ∧
        new.getLast? = some (.verify target sum) :=
  ⟨rfl, rfl,
    (checksum_mismatch_aborts threeEnv 0 [corruptWorker, worker1] ⟨threeDisk, []⟩ _ _
      rfl).1⟩

/-! ## The write comes before the integrity check -/

theorem Materialised.none (env : Env) (w : World) : Materialised env w w [] :=
  ⟨by simp, fun _ => rfl, fun t s h => by simp at h, fun _ _ => rfl⟩

theorem Materialised.seq {env : Env} {w w₁ w₂ : World} {n₁ n₂ : List Event}
    (h₁ : Materialised env w w₁ n₁) (h₂ : Materialised env w₁ w₂ n₂) :
    Materialised env w w₂ (n₁ ++ n₂) := by
  obtain ⟨ht₁, he₁, hv₁, hf₁⟩ := h₁
  obtain ⟨ht₂, he₂, hv₂, hf₂⟩ := h₂
  refine ⟨by rw [ht₂, ht₁, List.append_assoc], ?_, ?_, ?_⟩
  · intro h
    obtain ⟨h1, h2⟩ := List.append_eq_nil.mp h
    rw [he₂ h2, he₁ h1]
  · intro t s h
    rw [List.getLast?_append] at h
    cases h2 : n₂.getLast? with
    | none =>
      have hn : n₂ = [] := List.getLast?_eq_none_iff.mp h2
      rw [h2] at h
      rw [he₂ hn]
      exact hv₁ t s (by simpa using h)
    | some x =>
      rw [h2] at h
      have hx : x = Event.verify t s := by simpa using h
      exact hv₂ t s (by rw [h2, hx])
  · intro p hp
    rw [hf₂ p (fun d hd => hp d (List.mem_append_right _ hd)),
      hf₁ p (fun d hd => hp d (List.mem_append_left _ hd))]

theorem receiveTarget_materialised (env : Env) (target : BuildTarget) (w : World) :
    ∃ new, Materialised env w (receiveTarget env target w).1 new := by
  simp only [receiveTarget]
  generalize hp : Join env.workSpacePath target.TargetPath = p
  split_ifs with h1 h2 h3
  all_goals (try split)
  all_goals (try split_ifs)
  all_goals
    first
    | exact ⟨[], Materialised.none env w⟩
    | (refine ⟨[.mkdir (Dir p)], ?_, ?_, ?_, ?_⟩
       · simp
       · simp
       · simp
       · intro q _; simp [Disk.mkdirAll])
    | (refine ⟨[.write p target.TargetData], ?_, ?_, ?_, ?_⟩
       · simp
       · simp
       · simp
       · intro q hq
         have : q ≠ p := fun h => hq target.TargetData (by simp [h])
         simp [Disk.writeFile, this])
    | (refine ⟨[.mkdir (Dir p), .write p target.TargetData], ?_, ?_, ?_, ?_⟩
       · simp
       · simp
       · simp
       · intro q hq
         have : q ≠ p := fun h => hq target.TargetData (by simp [h])
         simp [Disk.writeFile, Disk.mkdirAll, this])
    | (rename_i k _
       refine ⟨[.write p (target.TargetData.take k)], ?_, ?_, ?_, ?_⟩
       · simp
       · simp
       · simp
       · intro q hq
         have : q ≠ p := fun h => hq (target.TargetData.take k) (by simp [h])
         simp [Disk.writeFile, this])
    | (rename_i k _
       refine ⟨[.mkdir (Dir p), .write p (target.TargetData.take k)], ?_, ?_, ?_, ?_⟩
       · simp
       · simp
       · simp
       · intro q hq
         have : q ≠ p := fun h => hq (target.TargetData.take k) (by simp [h])
         simp [Disk.writeFile, Disk.mkdirAll, this])
    | (rename_i sum _ _
       refine ⟨[.write p target.TargetData, .verify target sum], ?_, ?_, ?_, ?_⟩
       · simp
       · simp
       · intro t s h
         have ht : t = target := by simp at h; exact h.1.symm
         subst ht
         simp [Disk.writeFile, hp]
       · intro q hq
         have : q ≠ p := fun h => hq target.TargetData (by simp [h])
         simp [Disk.writeFile, this])
    | (rename_i sum _ _
       refine ⟨[.mkdir (Dir p), .write p target.TargetData, .verify target sum],
         ?_, ?_, ?_, ?_⟩
       · simp
       · simp
       · intro t s h
         have ht : t = target := by simp at h; exact h.1.symm
         subst ht
         simp [Disk.writeFile, hp]
       · intro q hq
         have : q ≠ p := fun h => hq target.TargetData (by simp [h])
         simp [Disk.writeFile, Disk.mkdirAll, this])

theorem receiveTargets_materialised (env : Env) :
    ∀ (targets : List BuildTarget) (w : World),
      ∃ new, Materialised env w (receiveTargets env targets w).1 new := by
  intro targets
  induction targets with
  | nil => intro w; exact ⟨[], Materialised.none env w⟩
  | cons target targets ih =>
    intro w
    obtain ⟨n1, h1⟩ := receiveTarget_materialised env target w
    rcases hr : receiveTarget env target w with ⟨w1, _ | e⟩
    · rw [hr] at h1
      obtain ⟨n2, h2⟩ := ih w1
      exact ⟨n1 ++ n2, by simpa only [receiveTargets, hr] using h1.seq h2⟩
    · rw [hr] at h1
      exact ⟨n1, by simpa only [receiveTargets, hr] using h1⟩

theorem receiveBuildResponse_materialised (env : Env) :
    ∀ (results : List RecvResult) (w : World),
      ∃ new, Materialised env w (receiveBuildResponse env results w).1 new := by
  intro results
  induction results with
  | nil => intro w; exact ⟨[], Materialised.none env w⟩
  | cons r results ih =>
    intro w
    cases r with
    | failure => exact ⟨[], Materialised.none env w⟩
    | reply result =>
      obtain ⟨n1, h1⟩ := receiveTargets_materialised env result.BuildTargets w
      rcases hr : receiveTargets env result.BuildTargets w with ⟨w1, _ | e⟩
      · rw [hr] at h1
        obtain ⟨n2, h2⟩ := ih w1
        exact ⟨n1 ++ n2, by simpa only [receiveBuildResponse, hr] using h1.seq h2⟩
      · rw [hr] at h1
        exact ⟨n1, by simpa only [receiveBuildResponse, hr] using h1⟩

theorem WriteThenVerify.quiet (env : Env) {events : List Event}
    (h : ∀ t s, Event.verify t s ∉ events) : WriteThenVerify env events := by
  intro before target sum after heq
  exact absurd (by rw [heq]; simp) (h target sum)

theorem WriteThenVerify.step (env : Env) (target : BuildTarget) {made : List Event}
    (h : ∀ t s, Event.verify t s ∉ made) :
    WriteThenVerify env (made ++
      [Event.write (Join env.workSpacePath target.TargetPath) target.TargetData,
       Event.verify target (env.hash target.TargetData)]) := by
  intro before t s after heq
  have heq' : (made ++ [Event.write (Join env.workSpacePath target.TargetPath)
      target.TargetData]) ++ [Event.verify target (env.hash target.TargetData)]
      = before ++ Event.verify t s :: after := by
    rw [← heq]; simp
  rcases List.eq_nil_or_concat after with rfl | ⟨after', x, rfl⟩
  · obtain ⟨h1, h2⟩ := List.append_inj' heq' rfl
    simp only [List.cons.injEq, Event.verify.injEq, and_true] at h2
    obtain ⟨rfl, rfl⟩ := h2
    exact ⟨rfl, made, h1.symm⟩
  · have heq'' : (made ++ [Event.write (Join env.workSpacePath target.TargetPath)
        target.TargetData]) ++ [Event.verify target (env.hash target.TargetData)]
        = (before ++ Event.verify t s :: after') ++ [x] := by
      rw [heq']; simp
    obtain ⟨h1, -⟩ := List.append_inj' heq'' rfl
    have hmem : Event.verify t s ∈ made ++
        [Event.write (Join env.workSpacePath target.TargetPath) target.TargetData] := by
      rw [h1]; simp
    rcases List.mem_append.mp hmem with hm | hm
    · exact absurd hm (h t s)
    · simp at hm

theorem WriteThenVerify.concat {env : Env} {a b : List Event}
    (ha : WriteThenVerify env a) (hb : WriteThenVerify env b) :
    WriteThenVerify env (a ++ b) := by
  intro before target sum after heq
  rcases List.append_eq_append_iff.mp heq with ⟨a', h1, h2⟩ | ⟨c', h1, h2⟩
  · obtain ⟨hs, earlier, he⟩ := hb a' target sum after h2
    exact ⟨hs, a ++ earlier, by rw [h1, he, List.append_assoc]⟩
  · cases c' with
    | nil =>
      simp only [List.nil_append] at h2
      simp only [List.append_nil] at h1
      obtain ⟨hs, earlier, he⟩ := hb [] target sum after h2.symm
      exact absurd he (by simp)
    | cons x c' =>
      simp only [List.cons_append, List.cons.injEq] at h2
      obtain ⟨rfl, rfl⟩ := h2
      exact ha before target sum c' h1

theorem Checksum_writeFile (env : Env) (d : Disk) (p : String) (data : Bytes) (sum : String)
    (h : Checksum env (d.writeFile p data) p = some sum) : sum = env.hash data := by
  simp only [Checksum, Disk.writeFile] at h
  split_ifs at h
  simpa using h.symm

theorem receiveTarget_order (env : Env) (target : BuildTarget) (w : World) :
    ∃ new, (receiveTarget env target w).1.trace = w.trace ++ new ∧
      WriteThenVerify env new := by
  simp only [receiveTarget]
  generalize hp : Join env.workSpacePath target.TargetPath = p
  split_ifs with h1 h2 h3
  all_goals (try split)
  all_goals (try split_ifs)
  all_goals
    first
    | (refine ⟨[], ?_, .quiet env ?_⟩
       · simp
       · simp)
    | (refine ⟨[.mkdir (Dir p)], ?_, .quiet env ?_⟩
       · simp
       · simp)
    | (refine ⟨[.write p target.TargetData], ?_, .quiet env ?_⟩
       · simp
       · simp)
    | (refine ⟨[.mkdir (Dir p), .write p target.TargetData], ?_, .quiet env ?_⟩
       · simp
       · simp)
    | (rename_i k _
       refine ⟨[.write p (target.TargetData.take k)], ?_, .quiet env ?_⟩
       · simp
       · simp)
    | (rename_i k _
       refine ⟨[.mkdir (Dir p), .write p (target.TargetData.take k)], ?_, .quiet env ?_⟩
       · simp
       · simp)
    | (rename_i sum hsum _
       have hs := Checksum_writeFile env _ _ _ _ hsum
       subst hs
       subst hp
       refine ⟨[] ++ [.write _ target.TargetData, .verify target _], ?_,
         WriteThenVerify.step env target ?_⟩
       · simp
       · simp)
    | (rename_i sum hsum _
       have hs := Checksum_writeFile env _ _ _ _ hsum
       subst hs
       subst hp
       refine ⟨[.mkdir (Dir (Join env.workSpacePath target.TargetPath))] ++
         [.write _ target.TargetData, .verify target _], ?_,
         WriteThenVerify.step env target ?_⟩
       · simp
       · simp)

theorem receiveTargets_order (env : Env) :
    ∀ (targets : List BuildTarget) (w : World),
      ∃ new, (receiveTargets env targets w).1.trace = w.trace ++ new ∧
        WriteThenVerify env new := by
  intro targets
  induction targets with
  | nil =>
    intro w
    exact ⟨[], by simp [receiveTargets], .quiet env (by simp)⟩
  | cons target targets ih =>
    intro w
    obtain ⟨n1, h1, hm1⟩ := receiveTarget_order env target w
    rcases hr : receiveTarget env target w with ⟨w1, _ | e⟩
    · rw [hr] at h1
      obtain ⟨n2, h2, hm2⟩ := ih w1
      refine ⟨n1 ++ n2, ?_, hm1.concat hm2⟩
      simp only [receiveTargets, hr]
      rw [h2, h1, List.append_assoc]
    · rw [hr] at h1
      exact ⟨n1, by simpa only [receiveTargets, hr] using h1, hm1⟩

theorem receiveBuildResponse_order (env : Env) :
    ∀ (results : List RecvResult) (w : World),
      ∃ new, (receiveBuildResponse env results w).1.trace = w.trace ++ new ∧
        WriteThenVerify env new := by
  intro results
  induction results with
  | nil =>
    intro w
    exact ⟨[], by simp [receiveBuildResponse], .quiet env (by simp)⟩
  | cons r results ih =>
    intro w
    cases r with
    | failure => exact ⟨[], by simp [receiveBuildResponse], .quiet env (by simp)⟩
    | reply result =>
      obtain ⟨n1, h1, hm1⟩ := receiveTargets_order env result.BuildTargets w
      rcases hr : receiveTargets env result.BuildTargets w with ⟨w1, _ | e⟩
      · rw [hr] at h1
        obtain ⟨n2, h2, hm2⟩ := ih w1
        refine ⟨n1 ++ n2, ?_, hm1.concat hm2⟩
        simp only [receiveBuildResponse, hr]
        rw [h2, h1, List.append_assoc]
      · rw [hr] at h1
        exact ⟨n1, by simpa only [receiveBuildResponse, hr] using h1, hm1⟩

theorem receiveTargets_append (env : Env) :
    ∀ (earlier rest : List BuildTarget) (w w₁ : World),
      receiveTargets env earlier w = (w₁, none) →
      receiveTargets env (earlier ++ rest) w = receiveTargets env rest w₁ := by
  intro earlier
  induction earlier with
  | nil =>
    intro rest w w₁ h
    simp only [receiveTargets, Prod.mk.injEq, and_true] at h
    subst h; rfl
  | cons target earlier ih =>
    intro rest w w₁ h
    simp only [receiveTargets, List.cons_append] at h ⊢
    rcases hr : receiveTarget env target w with ⟨w', _ | e⟩
    · rw [hr] at h
      simp only [hr]
      exact ih rest w' w₁ h
    · rw [hr] at h
      simp at h

theorem receiveBuildResponse_append (env : Env) :
    ∀ (before rest : List RecvResult) (w w₁ : World),
      receiveBuildResponse env before w = (w₁, none) →
      receiveBuildResponse env (before ++ rest) w = receiveBuildResponse env rest w₁ := by
  intro before
  induction before with
  | nil =>
    intro rest w w₁ h
    simp only [receiveBuildResponse, Prod.mk.injEq, and_true] at h
    subst h; rfl
  | cons r before ih =>
    intro rest w w₁ h
    cases r with
    | failure => simp [receiveBuildResponse] at h
    | reply result =>
      simp only [receiveBuildResponse, List.cons_append] at h ⊢
      rcases hr : receiveTargets env result.BuildTargets w with ⟨w', _ | e⟩
      · rw [hr] at h
        simp only [hr]
        exact ih rest w' w₁ h
      · rw [hr] at h
        simp at h

theorem receiveTarget_stores (env : Env) (target : BuildTarget) (w : World)
    (hs : Stores env target w) (hne : env.hash target.TargetData ≠ target.Checksum) :
    (receiveTarget env target w).2 = some .mismatch ∧
    (receiveTarget env target w).1.disk.file (Join env.workSpacePath target.TargetPath)
      = some target.TargetData ∧
    ∃ made, (made = [] ∨ made = [Event.mkdir (Dir (Join env.workSpacePath target.TargetPath))]) ∧
      (receiveTarget env target w).1.trace = w.trace ++ made ++
        [Event.write (Join env.workSpacePath target.TargetPath) target.TargetData,
         Event.verify target (env.hash target.TargetData)] := by
  obtain ⟨h1, h2, h3, h4⟩ := hs
  simp only [receiveTarget]
  generalize Join env.workSpacePath target.TargetPath = p at h1 h2 h3 h4 ⊢
  rw [if_neg (by rw [h1]; simp)]
  by_cases hd : (!w.disk.present p && !w.disk.present (Dir p)) = true
  · rw [if_pos hd] at h2
    simp only [if_pos hd, h2, h3, Checksum, h4, Disk.writeFile, if_true, Option.map_some',
      Bool.false_eq_true, if_false, hne, ne_eq, not_false_eq_true]
    exact ⟨trivial, trivial, [Event.mkdir (Dir p)], Or.inr rfl, by simp⟩
  · rw [if_neg hd] at h2
    simp only [if_neg hd, h2, h3, Checksum, h4, Disk.writeFile, if_true, Option.map_some',
      Bool.false_eq_true, if_false, hne, ne_eq, not_false_eq_true]
    exact ⟨trivial, trivial, [], Or.inl rfl, by simp⟩

/-- C11, as the code has it: the integrity check comes after the write and stops what
would follow. In every call of `receiveBuildResponse`: (1) every check among the new
events comes directly after the write of the data of the same target to its path, and the
checksum it compares is the digest of that data; (2) for every received target whose
recomputed checksum differs from the received one, the call returns the mismatch error,
that check is the last event, so no later target is written, and the file at the path of
the target holds the received data; (3) the files at paths at which no call of
`os.WriteFile` left anything are the same as before; (4) when the replies before a target
and the targets before it in its reply are stored without error, no call fails for the
target itself and the digest of its data is not the checksum received with it, then the
call returns the mismatch error, the file at the path of the target holds the received
data, and the events end with the write and the check of that target. -/
theorem mismatch_payload_written (env : Env) (results : List RecvResult) (w : World) :
    (∃ new, (receiveBuildResponse env results w).1.trace = w.trace ++ new ∧
      WriteThenVerify env new ∧
      (∀ target sum, Event.verify target sum ∈ new → sum ≠ target.Checksum →
        (receiveBuildResponse env results w).2 = some .mismatch ∧
        new.getLast? = some (.verify target sum) ∧
        (receiveBuildResponse env results w).1.disk.file
            (Join env.workSpacePath target.TargetPath) = some target.TargetData) ∧
      (∀ p, (∀ data, Event.write p data ∉ new) →
        (receiveBuildResponse env results w).1.disk.file p = w.disk.file p)) ∧
    (∀ (before after : List RecvResult) (earlier later : List BuildTarget)
        (target : BuildTarget) (w₁ w₂ : World),
      results = before ++ .reply ⟨earlier ++ target :: later⟩ :: after →
      receiveBuildResponse env before w = (w₁, none) →
      receiveTargets env earlier w₁ = (w₂, none) →
      Stores env target w₂ →
      env.hash target.TargetData ≠ target.Checksum →
      (receiveBuildResponse env results w).2 = some .mismatch ∧
      (receiveBuildResponse env results w).1.disk.file
          (Join env.workSpacePath target.TargetPath) = some target.TargetData ∧
      ∃ made, (made = [] ∨
          made = [Event.mkdir (Dir (Join env.workSpacePath target.TargetPath))]) ∧
        (receiveBuildResponse env results w).1.trace = w₂.trace ++ made ++
          [Event.write (Join env.workSpacePath target.TargetPath) target.TargetData,
           Event.verify target (env.hash target.TargetData)]) := by
  constructor
  · obtain ⟨new, htrace, _, hlast, hframe⟩ :=
      receiveBuildResponse_materialised env results w
    obtain ⟨new', htrace', hends⟩ := receiveBuildResponse_trace env results w
    obtain ⟨new'', htrace'', horder⟩ := receiveBuildResponse_order env results w
    have hnew : new' = new := List.append_cancel_left (htrace'.symm.trans htrace)
    have hnew' : new'' = new := List.append_cancel_left (htrace''.symm.trans htrace)
    subst hnew hnew'
    refine ⟨new'', htrace, horder, ?_, hframe⟩
    intro target sum hmem hne
    obtain ⟨herr, hl⟩ := hends.last target sum hmem hne
    exact ⟨herr, hl, hlast target sum hl⟩
  · intro before after earlier later target w₁ w₂ hres hbefore hearlier hstores hne
    subst hres
    rw [receiveBuildResponse_append env before _ w w₁ hbefore]
    simp only [receiveBuildResponse]
    rw [receiveTargets_append env earlier _ w₁ w₂ hearlier]
    simp only [receiveTargets]
    obtain ⟨herr, hfile, made, hmade, htrace⟩ := receiveTarget_stores env target w₂ hstores hne
    rcases hr : receiveTarget env target w₂ with ⟨w₃, _ | e⟩
    · rw [hr] at herr
      simp at herr
    · rw [hr] at herr hfile htrace
      exact ⟨herr, hfile, made, hmade, htrace⟩

/-- Witness of C11, as the code has it: the first target of `corruptStream` is stored
without a failing call and its checksum `deadbeef` is not the digest of its data; the call
returns the mismatch error, `/ws/out/bin` holds the payload, and the events are the making
of `/ws/out`, the write and the check, with nothing for the later targets. -/
theorem mismatch_payload_written_witness :
    (receiveBuildResponse threeEnv (corruptStream.recv ⟨"", [], "", "", []⟩)
      ⟨threeDisk, []⟩).2 = some .mismatch ∧
    (receiveBuildResponse threeEnv (corruptStream.recv ⟨"", [], "", "", []⟩)
      ⟨threeDisk, []⟩).1.disk.file (Join "/ws" "out/bin") = some [1, 2] ∧
    ∃ made, (made = [] ∨ made = [Event.mkdir (Dir (Join "/ws" "out/bin"))]) ∧
      (receiveBuildResponse threeEnv (corruptStream.recv ⟨"", [], "", "", []⟩)
        ⟨threeDisk, []⟩).1.trace = [] ++ made ++
        [Event.write (Join "/ws" "out/bin") [1, 2],
         Event.verify ⟨"out/bin", [1, 2], "deadbeef"⟩ (threeEnv.hash [1, 2])] :=
  (mismatch_payload_written threeEnv (corruptStream.recv ⟨"", [], "", "", []⟩)
    ⟨threeDisk, []⟩).2 [] [.reply ⟨[⟨"out/doc", [4], "4"⟩]⟩] [] [⟨"out/lib", [3], "3"⟩]
    ⟨"out/bin", [1, 2], "deadbeef"⟩ ⟨threeDisk, []⟩ ⟨threeDisk, []⟩ rfl rfl rfl
    ⟨by decide, by decide, rfl, rfl⟩ (by decide)

/-- A failing write is seen in the workspace: on a host where `os.WriteFile` fails after
one byte, the file `/ws/a.c`, which held `[1]`, holds the first byte of the payload after
the call, which returns the write error. -/
theorem failed_write_leaves_prefix :
    threeDisk.file "/ws/a.c" = some [1] ∧
    receiveBuildResponse
        { threeEnv with writeFileFails := fun _ => true, writeFileLeaves := fun _ => some 1 }
        [.reply ⟨[⟨"a.c", [7, 8], "15"⟩]⟩] ⟨threeDisk, []⟩
      = (⟨threeDisk.writeFile "/ws/a.c" [7], [.write "/ws/a.c" [7]]⟩, some .writeFile) :=
  ⟨rfl, rfl⟩

/-- Counterexample to C11: the first target of `corruptStream` has a checksum that is not
the digest of its data; `receiveBuildResponse` returns the mismatch error, and the file
`/ws/out/bin`, which did not exist before, holds the payload afterwards. -/
theorem mismatch_payload_on_disk :
    threeEnv.hash [1, 2] ≠ "deadbeef" ∧
    threeDisk.file "/ws/out/bin" = none ∧
    (receiveBuildResponse threeEnv (corruptStream.recv ⟨"", [], "", "", []⟩)
      ⟨threeDisk, []⟩).2 = some .mismatch ∧
    (receiveBuildResponse threeEnv (corruptStream.recv ⟨"", [], "", "", []⟩)
      ⟨threeDisk, []⟩).1.disk.file "/ws/out/bin" = some [1, 2] :=
  ⟨by decide, rfl, rfl, rfl⟩

/-! ## `run`: partial connection failure -/

theorem connectAll_eq (dial : String → Option BuildServiceClient) :
    ∀ (addrs : List String) (pool : Pool),
      connectAll dial addrs pool
        = ⟨pool.attempted ++ addrs, pool.clients ++ addrs.filterMap dial,
            pool.conns ++ addrs.filter (fun a => (dial a).isSome),
            pool.errs ++ addrs.filter (fun a => (dial a).isNone)⟩ := by
  intro addrs
  induction addrs with
  | nil => intro pool; simp [connectAll]
  | cons addr addrs ih =>
    intro pool
    cases h : dial addr with
    | none => simp [connectAll, h, ih]
    | some client => simp [connectAll, h, ih]

/-- C12: `run` tries every address, fails with the connection error exactly when no
attempt succeeds, and otherwise dispatches with the clients of the successful attempts,
in the order of their addresses. If every attempt fails the result is the connection
error, with all addresses tried and reported; if some attempt succeeds the result is the
one of `sendBuild` on `addrs.filterMap dial`, again with all addresses tried. -/
theorem run_uses_connected_clients (env : Env) (dial : String → Option BuildServiceClient)
    (addrs : List String) (fuel : Nat) (w : World) :
    ((∀ a ∈ addrs, dial a = none) →
      run env dial addrs fuel w = some ⟨w, some .noConnection, addrs, [], [], addrs⟩) ∧
    ((∃ a ∈ addrs, dial a ≠ none) →
      run env dial addrs fuel w
        = match sendBuild env fuel (addrs.filterMap dial) w with
          | none => none
          | some (w', err) =>
            some ⟨w', err.map .sendBuild, addrs, addrs.filterMap dial,
              addrs.filter (fun a => (dial a).isSome), []⟩) ∧
    (∀ r, run env dial addrs fuel w = some r →
      r.attempted = addrs ∧ (r.err = some .noConnection ↔ ∀ a ∈ addrs, dial a = none)) := by
  have hpool := connectAll_eq dial addrs ⟨[], [], [], []⟩
  simp only [List.nil_append] at hpool
  have hall : (∀ a ∈ addrs, dial a = none) →
      run env dial addrs fuel w = some ⟨w, some .noConnection, addrs, [], [], addrs⟩ := by
    intro h
    have h1 : addrs.filterMap dial = [] := List.filterMap_eq_nil_iff.mpr h
    have h2 : addrs.filter (fun a => (dial a).isNone) = addrs :=
      List.filter_eq_self.mpr (fun a ha => by simp [h a ha])
    simp [run, hpool, h1, h2]
  have hsome : (∃ a ∈ addrs, dial a ≠ none) →
      run env dial addrs fuel w
        = match sendBuild env fuel (addrs.filterMap dial) w with
          | none => none
          | some (w', err) =>
            some ⟨w', err.map .sendBuild, addrs, addrs.filterMap dial,
              addrs.filter (fun a => (dial a).isSome), []⟩ := by
    rintro ⟨a, ha, hne⟩
    have h1 : (addrs.filterMap dial).length ≠ 0 := by
      intro h0
      exact hne (List.filterMap_eq_nil_iff.mp (List.length_eq_zero.mp h0) a ha)
    simp only [run, hpool, if_neg h1]
    rcases sendBuild env fuel (addrs.filterMap dial) w with _ | ⟨w', _ | e⟩ <;> rfl
  refine ⟨hall, hsome, ?_⟩
  intro r hr
  by_cases h : ∀ a ∈ addrs, dial a = none
  · rw [hall h] at hr
    cases hr
    exact ⟨rfl, fun _ => h, fun _ => rfl⟩
  · have h' : ∃ a ∈ addrs, dial a ≠ none := by
      by_contra hcon
      exact h (fun a ha => by_contra (fun hne => hcon ⟨a, ha, hne⟩))
    rw [hsome h'] at hr
    rcases hs : sendBuild env fuel (addrs.filterMap dial) w with _ | ⟨w', _ | e⟩
    · rw [hs] at hr; cases hr
    · rw [hs] at hr; cases hr
      exact ⟨rfl, by simp [h]⟩
    · rw [hs] at hr; cases hr
      exact ⟨rfl, by simp [h]⟩

/-- Witness of C12: of three addresses the second cannot be connected; all three are
tried and the three units are dispatched to the clients of the first and the third. -/
theorem run_uses_connected_clients_witness :
    (∃ a ∈ ["10.0.0.1:39090", "10.0.0.9:39090", "10.0.0.2:39090"], dialTwoOfThree a ≠ none) ∧
    ["10.0.0.1:39090", "10.0.0.9:39090", "10.0.0.2:39090"].filterMap dialTwoOfThree
      = [worker0, worker1] ∧
    run threeEnv dialTwoOfThree ["10.0.0.1:39090", "10.0.0.9:39090", "10.0.0.2:39090"] 0
        ⟨threeDisk, []⟩
      = match sendBuild threeEnv 0
          (["10.0.0.1:39090", "10.0.0.9:39090", "10.0.0.2:39090"].filterMap dialTwoOfThree)
          ⟨threeDisk, []⟩ with
        | none => none
        | some (w', err) =>
          some ⟨w', err.map .sendBuild,
            ["10.0.0.1:39090", "10.0.0.9:39090", "10.0.0.2:39090"],
            ["10.0.0.1:39090", "10.0.0.9:39090", "10.0.0.2:39090"].filterMap dialTwoOfThree,
            ["10.0.0.1:39090", "10.0.0.9:39090", "10.0.0.2:39090"].filter
              (fun a => (dialTwoOfThree a).isSome), []⟩ :=
  ⟨⟨"10.0.0.1:39090", by simp, by simp [dialTwoOfThree]⟩, rfl,
    (run_uses_connected_clients threeEnv dialTwoOfThree
      ["10.0.0.1:39090", "10.0.0.9:39090", "10.0.0.2:39090"] 0 ⟨threeDisk, []⟩).2.1
      ⟨"10.0.0.1:39090", by simp, by simp [dialTwoOfThree]⟩⟩

/-! ## The disk policy of discovery -/

theorem Consul.sizeNamed_eq_find (name : String) (disks : List Consul.Disk) :
    Consul.sizeNamed name disks
      = (disks.find? (fun d => d.Name = name)).map (fun d => d.Size) := by
  induction disks with
  | nil => rfl
  | cons d disks ih =>
    by_cases h : d.Name = name
    · simp [Consul.sizeNamed, List.find?, h]
    · simp [Consul.sizeNamed, List.find?, h, ih]

theorem Consul.fields_accepted (fields : List (List Char)) :
    (match fields with
      | amount :: sizeUnit :: _ =>
        if sizeUnit = "GB".data then
          match Consul.Atoi amount with
          | none => false
          | some num => decide (500 ≤ num)
        else if sizeUnit = "TB".data then true
        else false
      | _ => false) = true ↔
    ∃ amount sizeUnit rest, fields = amount :: sizeUnit :: rest ∧
      (sizeUnit = "TB".data ∨
        (sizeUnit = "GB".data ∧ ∃ n, Consul.Atoi amount = some n ∧ 500 ≤ n)) := by
  have hne : "GB".data ≠ "TB".data := by decide
  rcases fields with _ | ⟨a, _ | ⟨u, r⟩⟩
  · exact ⟨fun h => Bool.noConfusion h, fun ⟨_, _, _, h, _⟩ => List.noConfusion h⟩
  · refine ⟨fun h => Bool.noConfusion h, fun ⟨_, _, _, h, _⟩ => ?_⟩
    injection h with _ h2
    exact List.noConfusion h2
  · show (if u = "GB".data then
          match Consul.Atoi a with
          | none => false
          | some num => decide (500 ≤ num)
        else if u = "TB".data then true else false) = true ↔ _
    constructor
    · intro h
      by_cases hg : u = "GB".data
      · rw [if_pos hg] at h
        cases ha : Consul.Atoi a with
        | none => rw [ha] at h; exact Bool.noConfusion h
        | some n =>
          rw [ha] at h
          exact ⟨a, u, r, rfl, Or.inr ⟨hg, n, ha, of_decide_eq_true h⟩⟩
      · rw [if_neg hg] at h
        by_cases ht : u = "TB".data
        · exact ⟨a, u, r, rfl, Or.inl ht⟩
        · rw [if_neg ht] at h; exact Bool.noConfusion h
    · rintro ⟨a', u', r', heq, h⟩
      injection heq with h1 h2
      injection h2 with h2 h3
      subst h1 h2
      rcases h with ht | ⟨hg, n, ha, hn⟩
      · have hg : u ≠ "GB".data := fun hg => hne (hg.symm.trans ht)
        rw [if_neg hg, if_pos ht]
      · rw [if_pos hg, ha]
        exact decide_eq_true hn

theorem Consul.fetchCompileDiskSize_eq (unmarshal : String → Option (List Consul.Disk))
    (disksInfo : String) :
    Consul.fetchCompileDiskSize unmarshal disksInfo
      = (unmarshal disksInfo).bind
          (fun disks => (Consul.specCompileDisk disks).map (fun d => d.Size)) := by
  unfold Consul.fetchCompileDiskSize Consul.specCompileDisk
  cases unmarshal disksInfo with
  | none => rfl
  | some disks =>
    simp only [Consul.sizeNamed_eq_find, Option.bind]
    split <;> split <;> simp_all

/-- C13, as the code has it: `isDiskSizeEnough` accepts a disk description if and only if
it parses as a list of disks, the compile disk (the first entry named `/home`, otherwise
the first entry named `/`) exists, and its size, split at single spaces, has at least two
fields of which the second is `TB`, or is `GB` with a first field that `strconv.Atoi`
reads (optional sign, decimal digits, within the range of a 64-bit `int`) as a number of
at least 500; fields after the second are ignored. -/
theorem Consul.isDiskSizeEnough_iff (unmarshal : String → Option (List Consul.Disk))
    (disksInfo : String) :
    Consul.isDiskSizeEnough unmarshal disksInfo = true ↔
      Consul.SpecPolicy unmarshal disksInfo := by
  unfold Consul.isDiskSizeEnough Consul.SpecPolicy
  rw [Consul.fetchCompileDiskSize_eq]
  cases hu : unmarshal disksInfo with
  | none =>
    exact ⟨fun h => Bool.noConfusion h, fun ⟨_, h, _⟩ => Option.noConfusion h⟩
  | some disks =>
    cases hd : Consul.specCompileDisk disks with
    | none =>
      refine ⟨fun h => ?_, fun ⟨disks', h, d, hd', _⟩ => ?_⟩
      · simp only [Option.bind, hd, Option.map] at h
        exact Bool.noConfusion h
      · cases h
        rw [hd] at hd'
        exact Option.noConfusion hd'
    | some d =>
      have hred : ((some disks).bind
          (fun disks => (Consul.specCompileDisk disks).map (fun d => d.Size))) = some d.Size := by
        simp only [Option.bind, hd, Option.map]
      rw [hred]
      show (match Consul.splitSpace d.Size.data with
        | amount :: sizeUnit :: _ =>
          if sizeUnit = "GB".data then
            match Consul.Atoi amount with
            | none => false
            | some num => decide (500 ≤ num)
          else if sizeUnit = "TB".data then true
          else false
        | _ => false) = true ↔ _
      rw [Consul.fields_accepted]
      constructor
      · rintro ⟨a, u, r, h⟩
        exact ⟨disks, rfl, d, hd, a, u, r, h⟩
      · rintro ⟨disks', h, d', hd', a, u, r, h'⟩
        cases h
        rw [hd] at hd'
        cases hd'
        exact ⟨a, u, r, h'⟩

/-- Witness of C13 as amended: a compile disk of `600 GB` is accepted. -/
theorem Consul.isDiskSizeEnough_iff_witness :
    Consul.isDiskSizeEnough (Consul.homeOnly "600 GB") "[]" = true :=
  (Consul.isDiskSizeEnough_iff (Consul.homeOnly "600 GB") "[]").mpr
    ⟨[⟨"/home", "600 GB"⟩], rfl, ⟨"/home", "600 GB"⟩, rfl, "600".data, "GB".data, [],
      by decide, Or.inr ⟨rfl, 600, by decide, by decide⟩⟩

/-- Counterexample to C13: the size `9223372036854775808 GB` is an integer amount of at
least 500 with the unit `GB`, and is rejected because the amount is out of the range of
`int`; the size `600 GB free` is not of the form `<n> GB` and is accepted. -/
theorem Consul.isDiskSizeEnough_edge_cases :
    toString (9223372036854775808 : Int) ++ " GB" = "9223372036854775808 GB" ∧
    (500 : Int) ≤ 9223372036854775808 ∧
    Consul.isDiskSizeEnough (Consul.homeOnly "9223372036854775808 GB") "[]" = false ∧
    "600 GB free" ≠ toString (600 : Int) ++ " GB" ∧
    Consul.isDiskSizeEnough (Consul.homeOnly "600 GB free") "[]" = true := by
  refine ⟨by decide, by decide, by decide, by decide, by decide⟩

/-! ## Termination of the enumeration -/

theorem walkEntries_mono (fs : FS) (dir : String)
    (walk walk' : String → String → List String → WalkResult)
    (hmono : ∀ p l f r, walk p l f = some r → walk' p l f = some r)
    (path linkPath : String) :
    ∀ (entries files : List String) (r : List String × Option TaskErr),
      walkEntries fs dir walk path linkPath entries files = some r →
      walkEntries fs dir walk' path linkPath entries files = some r := by
  intro entries
  induction entries with
  | nil => intro files r h; simpa [walkEntries] using h
  | cons name entries ih =>
    intro files r h
    simp only [walkEntries] at h ⊢
    repeat' split at h
    all_goals (try simp only [if_neg ‹¬ (_ : String) = ""›])
    all_goals (try simp only [if_pos ‹(_ : String) = ""›])
    all_goals
      first
      | exact h
      | exact ih _ _ h
      | (rename_i hw
         have hw' := hmono _ _ _ _ hw
         simp only [hw']
         first | exact h | exact ih _ _ h)
      | exact Option.noConfusion h

theorem walkDir_mono_succ (fs : FS) (dir : String) :
    ∀ (fuel : Nat) (path linkPath : String) (files : List String)
      (r : List String × Option TaskErr),
      walkDir fs dir fuel path linkPath files = some r →
      walkDir fs dir (fuel + 1) path linkPath files = some r := by
  intro fuel
  induction fuel with
  | zero => intro path linkPath files r h; simp [walkDir] at h
  | succ fuel ih =>
    intro path linkPath files r h
    rw [walkDir] at h ⊢
    cases hrd : fs.readDir path with
    | error e => rw [hrd] at h; exact h
    | ok entries =>
      rw [hrd] at h
      exact walkEntries_mono fs dir _ _ ih path linkPath entries files r h

theorem walkDir_mono (fs : FS) (dir : String) (fuel fuel' : Nat) (hle : fuel ≤ fuel')
    (path linkPath : String) (files : List String) (r : List String × Option TaskErr)
    (h : walkDir fs dir fuel path linkPath files = some r) :
    walkDir fs dir fuel' path linkPath files = some r := by
  induction hle with
  | refl => exact h
  | step _ ih => exact walkDir_mono_succ fs dir _ _ _ _ _ ih

theorem walkEntries_returns (fs : FS) (dir : String)
    (walk : String → String → List String → WalkResult) (path linkPath : String)
    (all : List String) (hrd : fs.readDir path = .ok all)
    (hchild : ∀ q, Child fs path q → ∀ l f, walk q l f ≠ none) :
    ∀ (entries : List String), (∀ n ∈ entries, n ∈ all) → ∀ (files : List String),
      walkEntries fs dir walk path linkPath entries files ≠ none := by
  intro entries
  induction entries with
  | nil => intro _ files; simp [walkEntries]
  | cons name entries ih =>
    intro hsub files h
    have hname : name ∈ all := hsub name (List.mem_cons_self _ _)
    have ih' := ih (fun n hn => hsub n (List.mem_cons_of_mem _ hn))
    simp only [walkEntries] at h
    repeat' split at h
    all_goals
      first
      | exact ih' _ h
      | exact Option.noConfusion h
      | (rename_i hl _ real hr hne _ hs _ hw
         exact hchild _ (Or.inr ⟨all, name, hrd, hname, hl, hr, hne, hs⟩) _ _ hw)
      | (rename_i hl _ hs _ hw
         exact hchild _ (Or.inl ⟨all, name, hrd, hname, hl, hs, rfl⟩) _ _ hw)

theorem plain_descent_longer (fs : FS)
    (hplain : ∀ p q, PlainStep fs p q → p.length < q.length) {a b : String}
    (h : Relation.TransGen (PlainStep fs) a b) : a.length < b.length := by
  induction h with
  | single h => exact hplain _ _ h
  | tail _ h ih => exact Nat.lt_trans ih (hplain _ _ h)

theorem descent_plain_or_link (fs : FS) {a b : String}
    (h : Relation.TransGen (Child fs) a b) :
    Relation.TransGen (PlainStep fs) a b ∨
      ∃ p r, Relation.ReflTransGen (Child fs) a p ∧ LinkStep fs p r ∧
        Relation.ReflTransGen (Child fs) r b := by
  induction h with
  | single h =>
    rcases h with h | h
    · exact Or.inl (Relation.TransGen.single h)
    · exact Or.inr ⟨_, _, Relation.ReflTransGen.refl, h, Relation.ReflTransGen.refl⟩
  | tail hab hbc ih =>
    rcases ih with ih | ⟨p, r, h1, h2, h3⟩
    · rcases hbc with h | h
      · exact Or.inl (Relation.TransGen.tail ih h)
      · exact Or.inr ⟨_, _, hab.to_reflTransGen, h, Relation.ReflTransGen.refl⟩
    · exact Or.inr ⟨p, r, h1, h2, h3.tail hbc⟩

theorem descent_acyclic (fs : FS)
    (hplain : ∀ p q, PlainStep fs p q → p.length < q.length)
    (hlink : ∀ p q, LinkStep fs p q → ¬ Relation.ReflTransGen (Child fs) q p)
    (a : String) : ¬ Relation.TransGen (Child fs) a a := by
  intro h
  rcases descent_plain_or_link fs h with h | ⟨p, r, h1, h2, h3⟩
  · exact Nat.lt_irrefl _ (plain_descent_longer fs hplain h)
  · exact hlink p r h2 (h3.trans h1)

theorem walkDir_returns_within (fs : FS) (dir : String) (dirs : List String)
    (hfin : ∀ p q, Child fs p q → q ∈ dirs)
    (hacyclic : ∀ a, ¬ Relation.TransGen (Child fs) a a) :
    ∀ (k : Nat) (seen : List String) (p : String), seen.Nodup → (∀ v ∈ seen, v ∈ dirs) →
      (∀ v ∈ seen, Relation.ReflTransGen (Child fs) v p) → seen.length + k = dirs.length →
      ∀ (l : String) (f : List String), walkDir fs dir (k + 1) p l f ≠ none := by
  intro k
  induction k with
  | zero =>
    intro seen p hnd hsub hreach hlen l f
    rw [walkDir]
    cases hrd : fs.readDir p with
    | error e => simp
    | ok entries =>
      refine walkEntries_returns fs dir _ p l entries hrd ?_ entries (fun _ hn => hn) f
      intro q hq
      exfalso
      have hq' : q ∉ seen := fun hmem =>
        hacyclic q (Relation.TransGen.tail' (hreach q hmem) hq)
      have hnd' : (q :: seen).Nodup := List.nodup_cons.mpr ⟨hq', hnd⟩
      have hsub' : q :: seen ⊆ dirs := by
        intro x hx
        rcases List.mem_cons.mp hx with rfl | hx
        · exact hfin p _ hq
        · exact hsub x hx
      have := (List.Nodup.subperm hnd' hsub').length_le
      simp only [List.length_cons] at this
      omega
  | succ k ih =>
    intro seen p hnd hsub hreach hlen l f
    rw [walkDir]
    cases hrd : fs.readDir p with
    | error e => simp
    | ok entries =>
      refine walkEntries_returns fs dir _ p l entries hrd ?_ entries (fun _ hn => hn) f
      intro q hq l' f'
      have hq' : q ∉ seen := fun hmem =>
        hacyclic q (Relation.TransGen.tail' (hreach q hmem) hq)
      refine ih (q :: seen) q (List.nodup_cons.mpr ⟨hq', hnd⟩) ?_ ?_ ?_ l' f'
      · intro x hx
        rcases List.mem_cons.mp hx with rfl | hx
        · exact hfin p _ hq
        · exact hsub x hx
      · intro x hx
        rcases List.mem_cons.mp hx with rfl | hx
        · exact Relation.ReflTransGen.refl
        · exact (hreach x hx).tail hq
      · simp only [List.length_cons]; omega

theorem appendPathToInputFiles_returns (fs : FS) (fuel : Nat) (dir : String)
    (hwalk : ∀ p l f, walkDir fs dir fuel p l f ≠ none) :
    ∀ (includePath inputFiles : List String),
      appendPathToInputFiles fs fuel dir inputFiles includePath ≠ none := by
  intro includePath
  induction includePath with
  | nil => intro files; simp [appendPathToInputFiles]
  | cons item includePath ih =>
    intro files h
    simp only [appendPathToInputFiles] at h
    repeat' split at h
    all_goals
      first
      | exact ih _ h
      | exact Option.noConfusion h
      | (rename_i hw; exact hwalk _ _ _ hw)

theorem appendPathToInputFiles_fuel (fs : FS) (dir : String) (fuel fuel' : Nat)
    (hsame : ∀ p l f, walkDir fs dir fuel' p l f = walkDir fs dir fuel p l f) :
    ∀ (includePath inputFiles : List String),
      appendPathToInputFiles fs fuel' dir inputFiles includePath
        = appendPathToInputFiles fs fuel dir inputFiles includePath := by
  intro includePath
  induction includePath with
  | nil => intro files; rfl
  | cons item includePath ih =>
    intro files
    simp only [appendPathToInputFiles, hsame, ih]

/-- C14: the recursive enumeration terminates on a finite workspace without a symlink
cycle. If the directories the walk can enter are among finitely many (`dirs`), a plain
directory entry has a longer path than its directory, and no link resolves to a
directory from which the walk comes back to the directory holding the link (the
descent following links as the walk does), then from some fuel on `walkDir` returns, and
returns the same result whatever more fuel it is given, and so does
`appendPathToInputFiles`. The walk has no record of visited directories: the fuel that
suffices is the number of directories plus one. -/
theorem walkDir_terminates (fs : FS) (dir : String) (dirs : List String)
    (hfin : ∀ p q, Child fs p q → q ∈ dirs)
    (hplain : ∀ p q, PlainStep fs p q → p.length < q.length)
    (hlink : ∀ p q, LinkStep fs p q → ¬ Relation.ReflTransGen (Child fs) q p)
    (root linkPath : String) (files : List String) :
    (∃ r, ∀ fuel, dirs.length + 1 ≤ fuel →
      walkDir fs dir fuel root linkPath files = some r) ∧
    (∀ includePath, ∃ r, ∀ fuel, dirs.length + 1 ≤ fuel →
      appendPathToInputFiles fs fuel dir files includePath = some r) := by
  have hsome : ∀ p l f, walkDir fs dir (dirs.length + 1) p l f ≠ none := fun p l f =>
    walkDir_returns_within fs dir dirs hfin (descent_acyclic fs hplain hlink)
      dirs.length [] p List.nodup_nil (fun _ h => absurd h (List.not_mem_nil _))
      (fun _ h => absurd h (List.not_mem_nil _)) (by simp) l f
  have hsame : ∀ fuel, dirs.length + 1 ≤ fuel → ∀ p l f,
      walkDir fs dir fuel p l f = walkDir fs dir (dirs.length + 1) p l f := by
    intro fuel hle p l f
    obtain ⟨r, hr⟩ := Option.ne_none_iff_exists'.mp (hsome p l f)
    rw [hr]
    exact walkDir_mono fs dir _ fuel hle p l f r hr
  constructor
  · obtain ⟨r, hr⟩ := Option.ne_none_iff_exists'.mp (hsome root linkPath files)
    exact ⟨r, fun fuel hle => walkDir_mono fs dir _ fuel hle root linkPath files r hr⟩
  · intro includePath
    obtain ⟨r, hr⟩ := Option.ne_none_iff_exists'.mp
      (appendPathToInputFiles_returns fs (dirs.length + 1) dir hsome includePath files)
    refine ⟨r, fun fuel hle => ?_⟩
    rw [appendPathToInputFiles_fuel fs dir (dirs.length + 1) fuel (hsame fuel hle), hr]

theorem ofList_readDir (nodes : List (String × Node)) (p : String) (entries : List String)
    (h : (FS.ofList nodes).readDir p = .ok entries) : (p, Node.dir entries) ∈ nodes := by
  simp only [FS.ofList] at h
  split at h
  · next entries' heq =>
    injection h with h
    subst h
    simp only [lookupNode, Option.map_eq_some'] at heq
    obtain ⟨x, hfind, hx⟩ := heq
    have hp : x.1 = p := by simpa using List.find?_some hfind
    have hmem := List.mem_of_find?_eq_some hfind
    have : x = (p, Node.dir entries') := by
      cases x; simp only at hp hx; rw [hp, hx]
    rw [← this]; exact hmem
  · exact Except.noConfusion h
  · exact Except.noConfusion h

theorem ok_conflict (a b : Bool) (hne : a ≠ b) {x : Except OsErr Bool}
    (h₁ : x = .ok a) (h₂ : x = .ok b) : False :=
  hne (Except.ok.inj (h₁.symm.trans h₂))

theorem linkedFS_plain (p q : String) (h : PlainStep linkedFS p q) :
    p = "/ext" ∧ q = "/ext/sub" := by
  obtain ⟨entries, name, hrd, hmem, hl, hs, rfl⟩ := h
  have hnode := ofList_readDir _ p entries hrd
  simp only [List.mem_cons, Prod.mk.injEq, Node.dir.injEq, List.mem_singleton, reduceCtorEq,
    and_false, or_false, false_or, List.not_mem_nil] at hnode
  rcases hnode with ⟨rfl, rfl⟩ | ⟨rfl, rfl⟩ | ⟨rfl, rfl⟩
  · simp only [List.mem_cons, List.mem_singleton, List.not_mem_nil, or_false] at hmem
    rcases hmem with rfl | rfl
    · exact (ok_conflict false true (by decide) rfl hs).elim
    · exact (ok_conflict true false (by decide) rfl hl).elim
  · simp only [List.mem_cons, List.mem_singleton, List.not_mem_nil, or_false] at hmem
    rcases hmem with rfl | rfl
    · exact (ok_conflict false true (by decide) rfl hs).elim
    · exact ⟨rfl, by decide⟩
  · simp only [List.mem_cons, List.mem_singleton, List.not_mem_nil, or_false] at hmem
    subst hmem
    exact (ok_conflict false true (by decide) rfl hs).elim

theorem linkedFS_link (p q : String) (h : LinkStep linkedFS p q) :
    p = "/ws/inc" ∧ q = "/ext" := by
  obtain ⟨entries, name, hrd, hmem, hl, hr, _, _⟩ := h
  have hnode := ofList_readDir _ p entries hrd
  simp only [List.mem_cons, Prod.mk.injEq, Node.dir.injEq, List.mem_singleton, reduceCtorEq,
    and_false, or_false, false_or, List.not_mem_nil] at hnode
  rcases hnode with ⟨rfl, rfl⟩ | ⟨rfl, rfl⟩ | ⟨rfl, rfl⟩
  · simp only [List.mem_cons, List.mem_singleton, List.not_mem_nil, or_false] at hmem
    rcases hmem with rfl | rfl
    · exact (ok_conflict false true (by decide) rfl hl).elim
    · have hq : resolveSymlink linkedFS (Join "/ws/inc" "ext") = .ok "/ext" := rfl
      exact ⟨rfl, (Except.ok.inj (hq.symm.trans hr)).symm⟩
  · simp only [List.mem_cons, List.mem_singleton, List.not_mem_nil, or_false] at hmem
    rcases hmem with rfl | rfl
    · exact (ok_conflict false true (by decide) rfl hl).elim
    · exact (ok_conflict false true (by decide) rfl hl).elim
  · simp only [List.mem_cons, List.mem_singleton, List.not_mem_nil, or_false] at hmem
    subst hmem
    exact (ok_conflict false true (by decide) rfl hl).elim

theorem linkedFS_below_ext (x : String)
    (h : Relation.ReflTransGen (Child linkedFS) "/ext" x) : x = "/ext" ∨ x = "/ext/sub" := by
  induction h with
  | refl => exact Or.inl rfl
  | tail _ hbc ih =>
    rcases hbc with hbc | hbc
    · exact Or.inr (linkedFS_plain _ _ hbc).2
    · have hb := (linkedFS_link _ _ hbc).1
      rcases ih with ih | ih
      · exact absurd (ih.symm.trans hb) (by decide)
      · exact absurd (ih.symm.trans hb) (by decide)

/-- Witness of C14: `linkedFS` has two directories that the walk can enter, `/ext`
(through the link `/ws/inc/ext`) and `/ext/sub`, and no cycle; the walk of `/ws/inc`
returns with every fuel from three on. -/
theorem walkDir_terminates_witness :
    walkDir linkedFS "/ws" 3 "/ws/inc" "/ws/inc" []
      = some (["inc/a.h", "inc/ext/b.h", "inc/ext/sub/c.h"], none) ∧
    ∃ r, ∀ fuel, ["/ext", "/ext/sub"].length + 1 ≤ fuel →
      walkDir linkedFS "/ws" fuel "/ws/inc" "/ws/inc" [] = some r :=
  ⟨by decide,
    (walkDir_terminates linkedFS "/ws" ["/ext", "/ext/sub"]
      (fun p q h => by
        rcases h with h | h
        · rw [(linkedFS_plain p q h).2]; simp
        · rw [(linkedFS_link p q h).2]; simp)
      (fun p q h => by
        obtain ⟨rfl, rfl⟩ := linkedFS_plain p q h
        decide)
      (fun p q h hreach => by
        obtain ⟨rfl, rfl⟩ := linkedFS_link p q h
        rcases linkedFS_below_ext _ hreach with h' | h'
        · exact absurd h' (by decide)
        · exact absurd h' (by decide))
      "/ws/inc" "/ws/inc" []).1⟩

theorem loopFS_step (dir linkPath : String) (files : List String) (fuel : Nat) :
    walkDir loopFS dir (fuel + 1) "/ws/inc" linkPath files
      = match walkDir loopFS dir fuel "/ws/inc" (Join linkPath "loop") files with
        | none => none
        | some (inputFiles, some err) => some (inputFiles, some err)
        | some (inputFiles, none) => some (inputFiles, none) :=
  rfl

/-- The walk of a directory that holds a link to itself does not return, whatever the
fuel: there is no record of the directories already visited. -/
theorem walkDir_cycle_diverges (dir : String) :
    ∀ (fuel : Nat) (linkPath : String) (files : List String),
      walkDir loopFS dir fuel "/ws/inc" linkPath files = none := by
  intro fuel
  induction fuel with
  | zero => intro linkPath files; rfl
  | succ fuel ih =>
    intro linkPath files
    rw [loopFS_step, ih]


end Proxy
